import Mathlib

/-!
Verification of the OptiSchema frontend analysis helpers.

The definitions below are shallow embeddings of the TypeScript helpers in
`frontend/app/dashboard/page.tsx` (extended variant), `frontend/components/QueryDetails.tsx`
and `frontend/components/RichMetricsCard.tsx`.  JavaScript strings are modelled as
`List Char`, JavaScript numbers as exact rationals (`Rat`).  The three regex
replacements inside `fingerprintQuery` are modelled by explicit scanning functions
that implement the exact semantics of the JavaScript regexes
`/'[^']*'/g`, `/\b\d+\.?\d*\b/g` and `/\s+/g` (leftmost match, greedy with
backtracking, ASCII word/space classes).
-/

/-- ASCII whitespace class of the JavaScript regex `\s` (space, tab, LF, CR, VT, FF). -/
def isWsC (c : Char) : Bool :=
  c = ' ' || c = '\t' || c = '\n' || c = '\r' || c = Char.ofNat 11 || c = Char.ofNat 12

/-- Word-character class of the JavaScript regex `\w` / word boundary `\b`:
`[A-Za-z0-9_]`. -/
def isWordC (c : Char) : Bool :=
  c.isAlpha || c.isDigit || c = '_'

/-- The single-quote character `'` (code point 39). -/
def quoteChar : Char := Char.ofNat 39

/-- Split a character list at every single quote.  The quotes themselves are dropped;
a list with `n` quotes yields `n+1` chunks, none of which contains a quote. -/
def splitOnQuote : List Char → List (List Char)
  | [] => [[]]
  | c :: cs =>
    if c = quoteChar then [] :: splitOnQuote cs
    else
      match splitOnQuote cs with
      | [] => [[c]]
      | p :: ps => (c :: p) :: ps

/-- Reassemble the chunks produced by `splitOnQuote`, replacing each pair of
consecutive quotes (i.e. each match of `/'[^']*'/`) with `?`.  A final unpaired
quote is kept verbatim, exactly as the JavaScript global replace leaves it. -/
def rejoinQuoted : List (List Char) → List Char
  | [] => []
  | [p] => p
  | [p, q] => p ++ quoteChar :: q
  | p :: _ :: (r :: rs) => p ++ '?' :: rejoinQuoted (r :: rs)

/-- `query.replace(/'[^']*'/g, '?')`: every string literal becomes `?`. -/
def stripStrings (l : List Char) : List Char := rejoinQuoted (splitOnQuote l)

/-- Scanner state for the numeric-literal replacement `/\b\d+\.?\d*\b/g`.
`norm prevW` is the outside-a-candidate state (`prevW`: previous character was a
word character, so no `\b` boundary before a digit); the other states buffer a
candidate match: digits (`run1`), digits followed by a dot (`runDot`), digits,
dot and more digits (`run2`).  Buffered digit groups are stored reversed. -/
inductive NumSt where
  | norm (prevW : Bool)
  | run1 (d1 : List Char)
  | runDot (d1 : List Char)
  | run2 (d1 d2 : List Char)

/-- One step of the numeric-literal scanner: consume one character, emit output.
The emitted text realises the backtracking behaviour of `\b\d+\.?\d*\b`:
e.g. in state `run1` a following word character means the final `\b` fails
(no match, digits are emitted verbatim), while a non-word character closes the
match, which is replaced by `?`. -/
def numStep : NumSt → Char → NumSt × List Char
  | NumSt.norm prevW, c =>
    if c.isDigit && !prevW then (NumSt.run1 [c], [])
    else (NumSt.norm (isWordC c), [c])
  | NumSt.run1 d1, c =>
    if c.isDigit then (NumSt.run1 (c :: d1), [])
    else if c = '.' then (NumSt.runDot d1, [])
    else if isWordC c then (NumSt.norm true, d1.reverse ++ [c])
    else (NumSt.norm false, ['?', c])
  | NumSt.runDot d1, c =>
    if c.isDigit then (NumSt.run2 d1 [c], [])
    else if isWordC c then (NumSt.norm true, ['?', c])
    else (NumSt.norm false, ['?', '.', c])
  | NumSt.run2 d1 d2, c =>
    if c.isDigit then (NumSt.run2 d1 (c :: d2), [])
    else if isWordC c then (NumSt.norm true, '?' :: (d2.reverse ++ [c]))
    else (NumSt.norm false, ['?', c])

/-- End-of-input output of the numeric-literal scanner (end of string is a
word boundary after a digit, but not after a dot, where the engine backtracks
to the digits-only match and leaves the dot in place). -/
def numFlush : NumSt → List Char
  | NumSt.norm _ => []
  | NumSt.run1 _ => ['?']
  | NumSt.runDot _ => ['?', '.']
  | NumSt.run2 _ _ => ['?']

/-- Run the numeric-literal scanner over a character list. -/
def stripNumsGo : NumSt → List Char → List Char
  | st, [] => numFlush st
  | st, c :: cs => (numStep st c).2 ++ stripNumsGo (numStep st c).1 cs

/-- `fingerprint.replace(/\b\d+\.?\d*\b/g, '?')`: numeric literals become `?`. -/
def stripNums (l : List Char) : List Char := stripNumsGo (NumSt.norm false) l

/-- `fingerprint.replace(/\s+/g, ' ')`: each whitespace run collapses to one space.
The flag records whether the scanner is inside a run that already emitted its space. -/
def collapseGo : Bool → List Char → List Char
  | _, [] => []
  | inWs, c :: cs =>
    if isWsC c then
      if inWs then collapseGo true cs else ' ' :: collapseGo true cs
    else c :: collapseGo false cs

/-- Collapse every whitespace run to a single space. -/
def collapseWs (l : List Char) : List Char := collapseGo false l

/-- Drop leading whitespace. -/
def trimLeft (l : List Char) : List Char := l.dropWhile (fun c => isWsC c)

/-- Drop trailing whitespace. -/
def trimRight : List Char → List Char
  | [] => []
  | c :: cs =>
    match trimRight cs with
    | [] => if isWsC c then [] else [c]
    | r => c :: r

/-- `String.prototype.trim`: drop whitespace at both ends. -/
def trimBoth (l : List Char) : List Char := trimRight (trimLeft l)

/-- The full normalisation pipeline of `fingerprintQuery` on character lists. -/
def fpChars (l : List Char) : List Char :=
  trimBoth (collapseWs (stripNums (stripStrings l)))

/-- `fingerprintQuery` from `frontend/app/dashboard/page.tsx`: strip string
literals, strip numeric literals, collapse whitespace, trim.  The guard
`if (!query) return ''` is the empty-string test. -/
def fingerprintQuery (query : String) : String :=
  if query.data.isEmpty then "" else String.mk (fpChars query.data)

/-- `l.map Char.toUpper`: ASCII upper-casing, as `toUpperCase` acts on the
ASCII statements the dashboard handles. -/
def toUpperL (l : List Char) : List Char := l.map Char.toUpper

/-- `beginsWith pat l`: JavaScript `l.startsWith(pat)`. -/
def beginsWith : List Char → List Char → Bool
  | [], _ => true
  | _ :: _, [] => false
  | p :: ps, c :: cs => p = c && beginsWith ps cs

/-- `containsSeq pat l`: JavaScript `l.includes(pat)`. -/
def containsSeq (pat : List Char) : List Char → Bool
  | [] => pat.isEmpty
  | c :: cs => beginsWith pat (c :: cs) || containsSeq pat cs

/-- `query.trim().toUpperCase()`, the normalisation at the top of `isBusinessQuery`. -/
def normQ (query : String) : List Char := toUpperL (trimBoth query.data)

/-- The system/bootstrap/comment patterns that make a statement noise in
`isBusinessQuery` (the first `if` of the function). -/
def sysNoise (q : List Char) : Bool :=
  containsSeq "PG_STAT_".data q || containsSeq "INFORMATION_SCHEMA".data q ||
  containsSeq "CREATE EXTENSION".data q || containsSeq "GRANT ".data q ||
  containsSeq "CREATE VIEW".data q || containsSeq "UNLISTEN".data q ||
  beginsWith "--".data q || beginsWith "/*".data q

/-- The recognised leading verbs of the extended `isBusinessQuery`
(dashboard variant with transaction-adjacent verbs). -/
def businessVerb (q : List Char) : Bool :=
  beginsWith "SELECT".data q || beginsWith "INSERT".data q ||
  beginsWith "UPDATE".data q || beginsWith "DELETE".data q ||
  beginsWith "MOVE".data q || beginsWith "FETCH".data q ||
  beginsWith "SET ".data q || beginsWith "BEGIN".data q ||
  beginsWith "COMMIT".data q || beginsWith "ROLLBACK".data q ||
  beginsWith "SAVEPOINT".data q || beginsWith "RELEASE".data q ||
  beginsWith "PREPARE".data q || beginsWith "EXECUTE".data q ||
  beginsWith "DEALLOCATE".data q

/-- `isBusinessQuery` (extended dashboard variant): noise patterns veto first,
then the leading verb decides. -/
def isBusinessQuery (query : String) : Bool :=
  if query.data.isEmpty then false
  else
    let q := normQ query
    if sysNoise q then false else businessVerb q

/-- The older `isBusinessQuery` of `frontend/app/dashboard/page.tsx`, which only
recognises SELECT/INSERT/UPDATE/DELETE. -/
def isBusinessQueryLegacy (query : String) : Bool :=
  if query.data.isEmpty then false
  else
    let q := normQ query
    if sysNoise q then false
    else
      beginsWith "SELECT".data q || beginsWith "INSERT".data q ||
      beginsWith "UPDATE".data q || beginsWith "DELETE".data q

/-- A metric record as consumed by the dashboard components.  JavaScript numbers
are modelled as exact rationals; fields the code reads defensively
(`m.total_time || 0`, the `performance_score` presence test) are `Option`s. -/
structure Metric where
  query_text : String
  calls : Rat
  total_time : Option Rat
  mean_time : Rat
  time_percentage : Rat
  rows : Rat
  shared_blks_hit : Rat
  shared_blks_read : Rat
  performance_score : Option Rat

/-- `m.total_time || 0`. -/
def orZero (x : Option Rat) : Rat := x.getD 0

/-- `calculateTimePercentage` from the dashboard: attach to every record its
share of the summed `total_time`, as a percentage; empty input yields `[]`. -/
def calculateTimePercentage (metrics : List Metric) : List Metric :=
  if metrics.isEmpty then []
  else
    metrics.map fun m =>
      { m with time_percentage :=
          if 0 < metrics.foldl (fun s x => s + orZero x.total_time) 0 then
            orZero m.total_time / metrics.foldl (fun s x => s + orZero x.total_time) 0 * 100
          else 0 }

/-- Cache-hit ratio as computed inside `getPerformanceScore`
(`QueryDetails.tsx`): zero block activity counts as a 100% hit rate. -/
def qdCacheHit (m : Metric) : Rat :=
  if 0 < m.shared_blks_hit + m.shared_blks_read then
    m.shared_blks_hit / (m.shared_blks_hit + m.shared_blks_read) * 100
  else 100

/-- Mean-latency penalty of the fallback score: only beyond the 10ms baseline,
capped at 40. -/
def gpsLatencyPenalty (m : Metric) : Rat :=
  if 10 < m.mean_time then min 40 ((m.mean_time - 10) / 2) else 0

/-- Cache-hit penalty of the fallback score: half a point per percentage point
below the 95% target. -/
def gpsCachePenalty (m : Metric) : Rat :=
  if qdCacheHit m < 95 then (95 - qdCacheHit m) * (1 / 2) else 0

/-- Share-of-total-time penalty of the fallback score: only beyond 10%, capped at 20. -/
def gpsSharePenalty (m : Metric) : Rat :=
  if 10 < m.time_percentage then min 20 ((m.time_percentage - 10) * (1 / 2)) else 0

/-- Row-return efficiency as computed inside `getPerformanceScore`:
rows per (8192/100-scaled) read block, capped at 100; degenerate inputs count as 100. -/
def qdRowEfficiency (m : Metric) : Rat :=
  if 0 < m.rows ∧ 0 < m.shared_blks_read then
    min 100 (m.rows / (m.shared_blks_read * 8192 / 100) * 100)
  else 100

/-- Row-efficiency bonus of the fallback score: only above 80, capped at 10. -/
def gpsRowBonus (m : Metric) : Rat :=
  if 80 < qdRowEfficiency m then min 10 ((qdRowEfficiency m - 80) * (1 / 5)) else 0

/-- `getPerformanceScore` from `QueryDetails.tsx`: a present backend
`performance_score` is returned unchanged; otherwise the fallback combines the
penalties and bonus above and clamps to [0,100]. -/
def getPerformanceScore (m : Metric) : Rat :=
  match m.performance_score with
  | some v => v
  | none =>
      max 0 (min 100
        (100 - gpsLatencyPenalty m - gpsCachePenalty m - gpsSharePenalty m + gpsRowBonus m))

/-- Cache-hit percentage as computed in `RichMetricsCard.tsx`: zero block
activity counts as 0%. -/
def rmcCacheHitPercentage (m : Metric) : Rat :=
  if 0 < m.shared_blks_hit + m.shared_blks_read then
    m.shared_blks_hit / (m.shared_blks_hit + m.shared_blks_read) * 100
  else 0

/-- Presentation impact band of a recommendation. -/
inductive ImpactBand where
  | high
  | medium
  | low
deriving DecidableEq

/-- A recommendation, reduced to the fields the banding claim concerns. -/
structure Recommendation where
  estimated_improvement_pct : Rat
  confidence_score : Rat

/-- Modelled from the spec: the impact-banding rule of the Recommendation
Generator ("≥25% → High, [10%,25%) → Medium, <10% → Low") lives in the backend,
which is not part of the frontend sources; the definition follows the spec text. -/
def impactBand (pct : Rat) : ImpactBand :=
  if 25 ≤ pct then ImpactBand.high
  else if 10 ≤ pct then ImpactBand.medium
  else ImpactBand.low

/-- The band presented for a recommendation. -/
def recommendationBand (r : Recommendation) : ImpactBand :=
  impactBand r.estimated_improvement_pct

example : fingerprintQuery "SELECT * FROM t WHERE  id = 42" = "SELECT * FROM t WHERE id = ?" := by decide

example : stripNums "12.5x".data = "?5x".data := by decide

example : stripNums "1e5".data = "1e5".data := by decide

/-! ### Concrete records used by witnesses and counterexamples -/

/-- A record carrying an out-of-range precomputed backend score. -/
def metricPassthrough : Metric := ⟨"SELECT 1", 1, some 1, 1, 0, 0, 0, 0, some 150⟩

/-- A record carrying an in-range precomputed backend score. -/
def metricPassthrough2 : Metric := ⟨"SELECT 1", 1, some 1, 1, 0, 0, 0, 0, some 7⟩

/-- A record without a precomputed score, exercising the fallback computation. -/
def metricFallback : Metric := ⟨"SELECT 1", 10, some 100, 5, 5, 10, 90, 10, none⟩

/-- A record with zero shared-block activity. -/
def metricZeroBlocks : Metric := ⟨"SELECT 1", 1, some 1, 1, 0, 5, 0, 0, none⟩

/-- Sample workload records for the time-percentage computation. -/
def metricT1 : Metric := ⟨"SELECT 1", 100, some 10000, 100, 0, 0, 0, 0, none⟩

/-- Second sample workload record. -/
def metricT2 : Metric := ⟨"SELECT 2", 1, some 30000, 1, 0, 0, 0, 0, none⟩

/-- Example recommendations for the banding claim. -/
def recHigh : Recommendation := ⟨30, 90⟩

/-- A recommendation agreeing with `recHigh` on the improvement estimate only. -/
def recHigh2 : Recommendation := ⟨30, 10⟩

/-! ### C2: noise classification -/

/-- C2: `isBusinessQuery` returns `false` exactly when the trimmed, upper-cased
statement matches a system/catalog pattern (catalog introspection, extension/DDL
bootstrap, UNLISTEN, or a leading comment) or its leading keyword is not one of
the recognised verbs; a pattern match vetoes regardless of the leading verb. -/
theorem isBusinessQuery_noise_iff (q : String) :
    isBusinessQuery q = false ↔
      (sysNoise (normQ q) = true ∨ businessVerb (normQ q) = false) := by
  cases hq : q.data.isEmpty with
  | false =>
    have h1 : isBusinessQuery q =
        (if sysNoise (normQ q) then false else businessVerb (normQ q)) := by
      simp [isBusinessQuery, hq]
    rw [h1]
    rcases Bool.eq_false_or_eq_true (sysNoise (normQ q)) with hs | hs
    · simp [hs]
    · simp [hs]
  | true =>
    have hd : q.data = [] := List.isEmpty_iff.mp hq
    have hn : normQ q = [] := by
      unfold normQ
      rw [hd]
      rfl
    have h1 : isBusinessQuery q = false := by simp [isBusinessQuery, hq]
    rw [h1, hn]
    exact iff_of_true rfl (Or.inr (by decide))

/-- Witness for C2 at a concrete noisy statement. -/
theorem isBusinessQuery_noise_iff_witness :
    isBusinessQuery "GRANT SELECT ON t TO u" = false :=
  (isBusinessQuery_noise_iff "GRANT SELECT ON t TO u").mpr (Or.inl (by decide))

/-! ### C3: score range -/

/-- C3 counterexample: a precomputed `performance_score` of 150 is passed through
unclamped, so the result is not in [0,100]. -/
theorem getPerformanceScore_passthrough_cex :
    getPerformanceScore metricPassthrough = 150 ∧
      ¬(getPerformanceScore metricPassthrough ≤ 100) := by
  constructor
  · rfl
  · show ¬((150 : Rat) ≤ 100)
    norm_num

/-- C3 (amended): the fallback computation is clamped to [0,100]; a precomputed
`performance_score` is returned unchanged (clamping does not apply to it). -/
theorem getPerformanceScore_amended (m : Metric) :
    (m.performance_score = none →
      0 ≤ getPerformanceScore m ∧ getPerformanceScore m ≤ 100) ∧
    (∀ v, m.performance_score = some v → getPerformanceScore m = v) := by
  constructor
  · intro h
    unfold getPerformanceScore
    rw [h]
    exact ⟨le_max_left _ _, max_le (by norm_num) (min_le_left _ _)⟩
  · intro v h
    unfold getPerformanceScore
    rw [h]

/-- Witness for C3 (amended) at concrete records. -/
theorem getPerformanceScore_amended_witness :
    (0 ≤ getPerformanceScore metricFallback ∧ getPerformanceScore metricFallback ≤ 100) ∧
      getPerformanceScore metricPassthrough2 = 7 :=
  ⟨(getPerformanceScore_amended metricFallback).1 rfl,
   (getPerformanceScore_amended metricPassthrough2).2 7 rfl⟩

/-! ### C8: the fallback score formula -/

/-- The fallback score as described by the specification: 100 minus a baseline
latency penalty (only beyond 10ms, capped at 40), minus half a point per
percentage point of cache-hit shortfall below 95, minus a share-of-total-time
penalty (only beyond 10%, capped at 20), plus a row-efficiency bonus (only above
80, capped at 10), clamped to [0,100]. -/
def specFallbackScore (m : Metric) : Rat :=
  let latencyPenalty := if m.mean_time ≤ 10 then 0 else min ((m.mean_time - 10) / 2) 40
  let cachePenalty := max 0 ((95 - qdCacheHit m) / 2)
  let sharePenalty := if m.time_percentage ≤ 10 then 0 else min ((m.time_percentage - 10) / 2) 20
  let rowBonus := if qdRowEfficiency m ≤ 80 then 0 else min ((qdRowEfficiency m - 80) / 5) 10
  max 0 (min 100 (100 - latencyPenalty - cachePenalty - sharePenalty + rowBonus))

/-- Guarded latency penalty agrees with its only-when/capped description. -/
theorem gpsLatencyPenalty_eq (m : Metric) :
    gpsLatencyPenalty m = if m.mean_time ≤ 10 then 0 else min ((m.mean_time - 10) / 2) 40 := by
  unfold gpsLatencyPenalty
  rcases le_or_lt m.mean_time 10 with h | h
  · rw [if_neg (not_lt.mpr h), if_pos h]
  · rw [if_pos h, if_neg (not_le.mpr h), min_comm]

/-- Guarded cache penalty equals the shortfall formulation. -/
theorem gpsCachePenalty_eq (m : Metric) :
    gpsCachePenalty m = max 0 ((95 - qdCacheHit m) / 2) := by
  unfold gpsCachePenalty
  rcases lt_or_le (qdCacheHit m) 95 with h | h
  · rw [if_pos h, max_eq_right (by linarith)]
    ring
  · rw [if_neg (not_lt.mpr h), max_eq_left (by linarith)]

/-- Guarded share penalty agrees with its only-when/capped description. -/
theorem gpsSharePenalty_eq (m : Metric) :
    gpsSharePenalty m =
      if m.time_percentage ≤ 10 then 0 else min ((m.time_percentage - 10) / 2) 20 := by
  unfold gpsSharePenalty
  rcases le_or_lt m.time_percentage 10 with h | h
  · rw [if_neg (not_lt.mpr h), if_pos h]
  · rw [if_pos h, if_neg (not_le.mpr h), min_comm,
      show (m.time_percentage - 10) * (1 / 2) = (m.time_percentage - 10) / 2 from by ring]

/-- Guarded row bonus agrees with its only-when/capped description. -/
theorem gpsRowBonus_eq (m : Metric) :
    gpsRowBonus m =
      if qdRowEfficiency m ≤ 80 then 0 else min ((qdRowEfficiency m - 80) / 5) 10 := by
  unfold gpsRowBonus
  rcases le_or_lt (qdRowEfficiency m) 80 with h | h
  · rw [if_neg (not_lt.mpr h), if_pos h]
  · rw [if_pos h, if_neg (not_le.mpr h), min_comm,
      show (qdRowEfficiency m - 80) * (1 / 5) = (qdRowEfficiency m - 80) / 5 from by ring]

/-- C8: without a precomputed score, `getPerformanceScore` computes exactly the
penalty/bonus combination described by the spec, clamped to [0,100]. -/
theorem getPerformanceScore_fallback_formula (m : Metric)
    (h : m.performance_score = none) :
    getPerformanceScore m = specFallbackScore m := by
  unfold getPerformanceScore
  rw [h]
  show max 0 (min 100
      (100 - gpsLatencyPenalty m - gpsCachePenalty m - gpsSharePenalty m + gpsRowBonus m)) = _
  rw [gpsLatencyPenalty_eq, gpsCachePenalty_eq, gpsSharePenalty_eq, gpsRowBonus_eq]
  rfl

/-- Witness for C8 at a concrete record. -/
theorem getPerformanceScore_fallback_formula_witness :
    getPerformanceScore metricFallback = specFallbackScore metricFallback :=
  getPerformanceScore_fallback_formula metricFallback rfl

/-! ### C10: the two cache-hit computations -/

/-- C10: on records with nonnegative block counters, the `QueryDetails` cache-hit
ratio (used by the score) and the `RichMetricsCard` one agree except exactly when
`shared_blks_hit + shared_blks_read = 0`, where the former yields 100 (and no
cache penalty) while the latter yields 0. -/
theorem cacheHit_zero_blocks_divergence (m : Metric)
    (h1 : 0 ≤ m.shared_blks_hit) (h2 : 0 ≤ m.shared_blks_read) :
    (m.shared_blks_hit + m.shared_blks_read = 0 →
       qdCacheHit m = 100 ∧ rmcCacheHitPercentage m = 0 ∧ gpsCachePenalty m = 0) ∧
    (m.shared_blks_hit + m.shared_blks_read ≠ 0 →
       qdCacheHit m = rmcCacheHitPercentage m) := by
  constructor
  · intro h0
    have hnl : ¬(0 < m.shared_blks_hit + m.shared_blks_read) := by
      rw [h0]
      exact lt_irrefl 0
    have hq : qdCacheHit m = 100 := by
      unfold qdCacheHit
      rw [if_neg hnl]
    refine ⟨hq, ?_, ?_⟩
    · unfold rmcCacheHitPercentage
      rw [if_neg hnl]
    · unfold gpsCachePenalty
      rw [hq]
      norm_num
  · intro hne
    have hp : 0 < m.shared_blks_hit + m.shared_blks_read :=
      lt_of_le_of_ne (add_nonneg h1 h2) (Ne.symm hne)
    unfold qdCacheHit rmcCacheHitPercentage
    rw [if_pos hp, if_pos hp]

/-- Witness for C10 at a zero-block-activity record. -/
theorem cacheHit_zero_blocks_divergence_witness :
    qdCacheHit metricZeroBlocks = 100 ∧ rmcCacheHitPercentage metricZeroBlocks = 0 ∧
      gpsCachePenalty metricZeroBlocks = 0 :=
  (cacheHit_zero_blocks_divergence metricZeroBlocks (le_refl 0) (le_refl 0)).1 (add_zero 0)

/-! ### C9: time percentages -/

/-- Sum of the (defaulted) total times of a batch. -/
def sumTotalTime (ms : List Metric) : Rat :=
  (ms.map (fun m => orZero m.total_time)).sum

/-- Folding additions from an accumulator equals the accumulator plus the mapped sum. -/
theorem foldl_add_orZero (f : Metric → Rat) (l : List Metric) (a : Rat) :
    l.foldl (fun s m => s + f m) a = a + (l.map f).sum := by
  induction l generalizing a with
  | nil => simp
  | cons x xs ih => simp [ih, add_assoc]

/-- C9: `calculateTimePercentage` maps each record (with nonnegative total times)
to the same record whose `time_percentage` is its total time divided by the batch
total, times 100, and 0 when the batch total is zero; all other fields are
unchanged and the length is preserved (the empty batch yields `[]`). -/
theorem calculateTimePercentage_spec (ms : List Metric)
    (h : ∀ m ∈ ms, 0 ≤ orZero m.total_time) :
    calculateTimePercentage ms =
      ms.map (fun m =>
        { m with time_percentage :=
            if sumTotalTime ms = 0 then 0
            else orZero m.total_time / sumTotalTime ms * 100 }) ∧
    (calculateTimePercentage ms).length = ms.length := by
  have hnn : 0 ≤ sumTotalTime ms := by
    refine List.sum_nonneg ?_
    intro x hx
    rcases List.mem_map.mp hx with ⟨m, hm, rfl⟩
    exact h m hm
  have hfold : ms.foldl (fun s x => s + orZero x.total_time) 0 = sumTotalTime ms := by
    rw [foldl_add_orZero, zero_add]
    rfl
  have hmain : calculateTimePercentage ms =
      ms.map (fun m =>
        { m with time_percentage :=
            if sumTotalTime ms = 0 then 0
            else orZero m.total_time / sumTotalTime ms * 100 }) := by
    rcases eq_or_ne ms [] with rfl | hne
    · simp [calculateTimePercentage]
    · have hE : ¬(ms.isEmpty = true) := by
        simp [hne]
      unfold calculateTimePercentage
      rw [if_neg hE, hfold]
      refine List.map_congr_left ?_
      intro m _
      have harg : (if 0 < sumTotalTime ms then orZero m.total_time / sumTotalTime ms * 100 else 0)
          = (if sumTotalTime ms = 0 then 0 else orZero m.total_time / sumTotalTime ms * 100) := by
        rcases eq_or_ne (sumTotalTime ms) 0 with h0 | h0
        · rw [if_pos h0, if_neg (by rw [h0]; exact lt_irrefl 0)]
        · rw [if_neg h0, if_pos (lt_of_le_of_ne hnn (Ne.symm h0))]
      rw [harg]
  exact ⟨hmain, by rw [hmain, List.length_map]⟩

/-- Witness for C9 at a concrete two-record batch. -/
theorem calculateTimePercentage_spec_witness :
    calculateTimePercentage [metricT1, metricT2] =
      [metricT1, metricT2].map (fun m =>
        { m with time_percentage :=
            if sumTotalTime [metricT1, metricT2] = 0 then 0
            else orZero m.total_time / sumTotalTime [metricT1, metricT2] * 100 }) ∧
    (calculateTimePercentage [metricT1, metricT2]).length = [metricT1, metricT2].length :=
  calculateTimePercentage_spec [metricT1, metricT2] (by
    intro m hm
    simp only [List.mem_cons, List.not_mem_nil, or_false] at hm
    rcases hm with rfl | rfl
    · norm_num [orZero, metricT1]
    · norm_num [orZero, metricT2])

/-! ### C4: impact banding -/

/-- C4: the presented impact band is a pure function of
`estimated_improvement_pct`, with thresholds ≥25 → High, [10,25) → Medium,
<10 → Low. -/
theorem impactBand_pure_thresholds (r r2 : Recommendation) :
    (r.estimated_improvement_pct = r2.estimated_improvement_pct →
       recommendationBand r = recommendationBand r2) ∧
    (recommendationBand r = ImpactBand.high ↔ 25 ≤ r.estimated_improvement_pct) ∧
    (recommendationBand r = ImpactBand.medium ↔
       10 ≤ r.estimated_improvement_pct ∧ r.estimated_improvement_pct < 25) ∧
    (recommendationBand r = ImpactBand.low ↔ r.estimated_improvement_pct < 10) := by
  refine ⟨fun h => by unfold recommendationBand; rw [h], ?_⟩
  rcases le_or_lt 25 r.estimated_improvement_pct with h25 | h25
  · have hb : recommendationBand r = ImpactBand.high := by
      unfold recommendationBand impactBand
      rw [if_pos h25]
    rw [hb]
    exact ⟨iff_of_true rfl h25,
      iff_of_false (by decide) (fun hc => absurd hc.2 (not_lt.mpr h25)),
      iff_of_false (by decide) (not_lt.mpr (by linarith))⟩
  · rcases le_or_lt 10 r.estimated_improvement_pct with h10 | h10
    · have hb : recommendationBand r = ImpactBand.medium := by
        unfold recommendationBand impactBand
        rw [if_neg (not_le.mpr h25), if_pos h10]
      rw [hb]
      exact ⟨iff_of_false (by decide) (not_le.mpr h25),
        iff_of_true rfl ⟨h10, h25⟩,
        iff_of_false (by decide) (not_lt.mpr h10)⟩
    · have hb : recommendationBand r = ImpactBand.low := by
        unfold recommendationBand impactBand
        rw [if_neg (not_le.mpr (by linarith)), if_neg (not_le.mpr h10)]
      rw [hb]
      exact ⟨iff_of_false (by decide) (not_le.mpr (by linarith)),
        iff_of_false (by decide) (fun hc => absurd hc.1 (not_le.mpr h10)),
        iff_of_true rfl h10⟩

/-- Witness for C4 at concrete recommendations. -/
theorem impactBand_pure_thresholds_witness :
    recommendationBand recHigh = recommendationBand recHigh2 ∧
      recommendationBand recHigh = ImpactBand.high :=
  ⟨(impactBand_pure_thresholds recHigh recHigh2).1 rfl,
   (impactBand_pure_thresholds recHigh recHigh2).2.1.mpr (by norm_num [recHigh])⟩

/-! ### Counterexamples for C1 and C6 -/

/-- C1 counterexample: statement pairs differing only in a literal value but with
different fingerprints — a leading-dot numeric literal (`.5` vs `5`) and a string
literal with a doubled-quote escape (`'it''s'` vs `'a'`). -/
theorem fingerprintQuery_literal_cex :
    fingerprintQuery "SELECT .5" ≠ fingerprintQuery "SELECT 5" ∧
    fingerprintQuery (String.mk
        (['S', 'E', 'L', 'E', 'C', 'T', ' '] ++
          [quoteChar, 'i', 't', quoteChar, quoteChar, 's', quoteChar])) ≠
      fingerprintQuery (String.mk
        (['S', 'E', 'L', 'E', 'C', 'T', ' '] ++ [quoteChar, 'a', quoteChar])) := by
  constructor
  · decide
  · decide

/-- C6 counterexample: two statements differing only in letter case have
different fingerprints (`fingerprintQuery` performs no case normalisation). -/
theorem fingerprintQuery_case_cex :
    fingerprintQuery "select 1" ≠ fingerprintQuery "SELECT 1" := by
  decide

/-! ### Character-class facts -/

/-- Whitespace characters are not digits. -/
theorem wsC_not_digit {c : Char} (h : isWsC c = true) : c.isDigit = false := by
  simp only [isWsC, Bool.or_eq_true, decide_eq_true_eq] at h
  rcases h with ((((rfl | rfl) | rfl) | rfl) | rfl) | rfl <;> decide

/-- Whitespace characters are not word characters. -/
theorem wsC_not_word {c : Char} (h : isWsC c = true) : isWordC c = false := by
  simp only [isWsC, Bool.or_eq_true, decide_eq_true_eq] at h
  rcases h with ((((rfl | rfl) | rfl) | rfl) | rfl) | rfl <;> decide

/-- Whitespace characters are not the dot. -/
theorem wsC_not_dot {c : Char} (h : isWsC c = true) : ¬(c = '.') := by
  simp only [isWsC, Bool.or_eq_true, decide_eq_true_eq] at h
  rcases h with ((((rfl | rfl) | rfl) | rfl) | rfl) | rfl <;> decide

/-- Digits are not whitespace. -/
theorem digit_not_ws {c : Char} (h : c.isDigit = true) : isWsC c = false := by
  cases hw : isWsC c
  · rfl
  · rw [wsC_not_digit hw] at h
    cases h

/-! ### Scanner-state invariant -/

/-- All characters of a list are digits. -/
def digitsOnly (l : List Char) : Prop := ∀ c ∈ l, c.isDigit = true

/-- Well-formedness of a scanner state: every buffered group is a nonempty list
of digits (as the scanner only ever buffers digits). -/
def StOk : NumSt → Prop
  | NumSt.norm _ => True
  | NumSt.run1 d1 => d1 ≠ [] ∧ digitsOnly d1
  | NumSt.runDot d1 => d1 ≠ [] ∧ digitsOnly d1
  | NumSt.run2 d1 d2 => (d1 ≠ [] ∧ digitsOnly d1) ∧ (d2 ≠ [] ∧ digitsOnly d2)

/-- `numStep` preserves state well-formedness. -/
theorem numStep_StOk {st : NumSt} (h : StOk st) (c : Char) : StOk (numStep st c).1 := by
  cases st with
  | norm p =>
    simp only [numStep]
    by_cases hd : (c.isDigit && !p) = true
    · rw [if_pos hd]
      refine ⟨by simp, ?_⟩
      intro x hx
      simp only [List.mem_singleton] at hx
      subst hx
      simp only [Bool.and_eq_true] at hd
      exact hd.1
    · rw [if_neg hd]
      trivial
  | run1 d1 =>
    simp only [numStep]
    by_cases hd : c.isDigit = true
    · rw [if_pos hd]
      refine ⟨by simp, ?_⟩
      intro x hx
      rcases List.mem_cons.mp hx with rfl | hx
      · exact hd
      · exact h.2 x hx
    · rw [if_neg hd]
      by_cases hdot : c = '.'
      · rw [if_pos hdot]
        exact h
      · rw [if_neg hdot]
        by_cases hw : isWordC c = true
        · rw [if_pos hw]
          trivial
        · rw [if_neg hw]
          trivial
  | runDot d1 =>
    simp only [numStep]
    by_cases hd : c.isDigit = true
    · rw [if_pos hd]
      refine ⟨h, by simp, ?_⟩
      intro x hx
      simp only [List.mem_singleton] at hx
      subst hx
      exact hd
    · rw [if_neg hd]
      by_cases hw : isWordC c = true
      · rw [if_pos hw]
        trivial
      · rw [if_neg hw]
        trivial
  | run2 d1 d2 =>
    simp only [numStep]
    by_cases hd : c.isDigit = true
    · rw [if_pos hd]
      refine ⟨h.1, by simp, ?_⟩
      intro x hx
      rcases List.mem_cons.mp hx with rfl | hx
      · exact hd
      · exact h.2.2 x hx
    · rw [if_neg hd]
      by_cases hw : isWordC c = true
      · rw [if_pos hw]
        trivial
      · rw [if_neg hw]
        trivial

/-- On a whitespace character every scanner state flushes its pending match and
emits the character: whitespace is non-digit, non-dot and non-word, so it always
closes a pending candidate at a word boundary. -/
theorem numStep_ws {c : Char} (h : isWsC c = true) (st : NumSt) :
    numStep st c = (NumSt.norm false, numFlush st ++ [c]) := by
  have hd : c.isDigit = false := wsC_not_digit h
  have hw : isWordC c = false := wsC_not_word h
  have hdot : ¬(c = '.') := wsC_not_dot h
  cases st with
  | norm p => simp [numStep, numFlush, hd, hw]
  | run1 d1 => simp [numStep, numFlush, hd, hw, hdot]
  | runDot d1 => simp [numStep, numFlush, hd, hw]
  | run2 d1 d2 => simp [numStep, numFlush, hd, hw]

/-- On a non-whitespace character the scanner emits no whitespace
(buffered digits, `?`, `.` and the character itself are all non-whitespace). -/
theorem numStep_emit_not_ws {st : NumSt} {c : Char} (hok : StOk st)
    (hc : isWsC c = false) : ∀ x ∈ (numStep st c).2, isWsC x = false := by
  cases st with
  | norm p =>
    simp only [numStep]
    by_cases hd : (c.isDigit && !p) = true
    · rw [if_pos hd]
      intro x hx
      cases hx
    · rw [if_neg hd]
      intro x hx
      simp only [List.mem_singleton] at hx
      subst hx
      exact hc
  | run1 d1 =>
    simp only [numStep]
    by_cases hd : c.isDigit = true
    · rw [if_pos hd]
      intro x hx
      cases hx
    · rw [if_neg hd]
      by_cases hdot : c = '.'
      · rw [if_pos hdot]
        intro x hx
        cases hx
      · rw [if_neg hdot]
        by_cases hw : isWordC c = true
        · rw [if_pos hw]
          intro x hx
          rcases List.mem_append.mp hx with hx | hx
          · exact digit_not_ws (hok.2 x (List.mem_reverse.mp hx))
          · simp only [List.mem_singleton] at hx
            subst hx
            exact hc
        · rw [if_neg hw]
          intro x hx
          rcases List.mem_cons.mp hx with rfl | hx
          · decide
          · simp only [List.mem_singleton] at hx
            subst hx
            exact hc
  | runDot d1 =>
    simp only [numStep]
    by_cases hd : c.isDigit = true
    · rw [if_pos hd]
      intro x hx
      cases hx
    · rw [if_neg hd]
      by_cases hw : isWordC c = true
      · rw [if_pos hw]
        intro x hx
        rcases List.mem_cons.mp hx with rfl | hx
        · decide
        · simp only [List.mem_singleton] at hx
          subst hx
          exact hc
      · rw [if_neg hw]
        intro x hx
        rcases List.mem_cons.mp hx with rfl | hx
        · decide
        · rcases List.mem_cons.mp hx with rfl | hx
          · decide
          · simp only [List.mem_singleton] at hx
            subst hx
            exact hc
  | run2 d1 d2 =>
    simp only [numStep]
    by_cases hd : c.isDigit = true
    · rw [if_pos hd]
      intro x hx
      cases hx
    · rw [if_neg hd]
      by_cases hw : isWordC c = true
      · rw [if_pos hw]
        intro x hx
        rcases List.mem_cons.mp hx with rfl | hx
        · decide
        · rcases List.mem_append.mp hx with hx | hx
          · exact digit_not_ws (hok.2.2 x (List.mem_reverse.mp hx))
          · simp only [List.mem_singleton] at hx
            subst hx
            exact hc
      · rw [if_neg hw]
        intro x hx
        rcases List.mem_cons.mp hx with rfl | hx
        · decide
        · simp only [List.mem_singleton] at hx
          subst hx
          exact hc

/-! ### Scanner behaviour on whitespace -/

/-- The scanner maps an all-whitespace list to its flush followed by the list. -/
theorem stripNumsGo_allws {w : List Char} (h : ∀ x ∈ w, isWsC x = true) (st : NumSt) :
    stripNumsGo st w = numFlush st ++ w := by
  induction w generalizing st with
  | nil => simp [stripNumsGo]
  | cons c cs ih =>
    have hc : isWsC c = true := h c (List.mem_cons_self c cs)
    have hcs : ∀ x ∈ cs, isWsC x = true := fun x hx => h x (List.mem_cons_of_mem c hx)
    rw [stripNumsGo, numStep_ws hc, ih hcs]
    simp [numFlush]

/-- Whether a state is mid-candidate. -/
def stRun : NumSt → Bool
  | NumSt.norm _ => false
  | _ => true

/-- A mid-candidate state always eventually emits a non-whitespace character. -/
theorem stripNumsGo_run_ex_nonws {z : List Char} {st : NumSt} (hok : StOk st)
    (hr : stRun st = true) : ∃ y ∈ stripNumsGo st z, isWsC y = false := by
  induction z generalizing st with
  | nil =>
    cases st with
    | norm p => cases hr
    | run1 d1 => exact ⟨'?', by simp [stripNumsGo, numFlush], by decide⟩
    | runDot d1 => exact ⟨'?', by simp [stripNumsGo, numFlush], by decide⟩
    | run2 d1 d2 => exact ⟨'?', by simp [stripNumsGo, numFlush], by decide⟩
  | cons c cs ih =>
    rw [stripNumsGo]
    by_cases hws : isWsC c = true
    · rw [numStep_ws hws]
      cases st with
      | norm p => cases hr
      | run1 d1 =>
        exact ⟨'?', by simp [numFlush], by decide⟩
      | runDot d1 =>
        exact ⟨'?', by simp [numFlush], by decide⟩
      | run2 d1 d2 =>
        exact ⟨'?', by simp [numFlush], by decide⟩
    · have hws2 : isWsC c = false := by
        cases h2 : isWsC c
        · rfl
        · exact absurd h2 hws
      by_cases hE : (numStep st c).2 = []
      · have hr2 : stRun (numStep st c).1 = true := by
          cases st with
          | norm p => cases hr
          | run1 d1 =>
            simp only [numStep] at hE ⊢
            by_cases hd : c.isDigit = true
            · rw [if_pos hd]
              rfl
            · rw [if_neg hd] at hE ⊢
              by_cases hdot : c = '.'
              · rw [if_pos hdot]
                rfl
              · rw [if_neg hdot] at hE
                by_cases hw : isWordC c = true
                · rw [if_pos hw] at hE
                  simp at hE
                · rw [if_neg hw] at hE
                  simp at hE
          | runDot d1 =>
            simp only [numStep] at hE ⊢
            by_cases hd : c.isDigit = true
            · rw [if_pos hd]
              rfl
            · rw [if_neg hd] at hE
              by_cases hw : isWordC c = true
              · rw [if_pos hw] at hE
                simp at hE
              · rw [if_neg hw] at hE
                simp at hE
          | run2 d1 d2 =>
            simp only [numStep] at hE ⊢
            by_cases hd : c.isDigit = true
            · rw [if_pos hd]
              rfl
            · rw [if_neg hd] at hE
              by_cases hw : isWordC c = true
              · rw [if_pos hw] at hE
                simp at hE
              · rw [if_neg hw] at hE
                simp at hE
        rw [hE]
        simpa using ih (numStep_StOk hok c) hr2
      · rcases List.exists_mem_of_ne_nil _ hE with ⟨y, hy⟩
        exact ⟨y, List.mem_append_left _ hy, numStep_emit_not_ws hok hws2 y hy⟩

/-- If the input has a non-whitespace character, so does the scanner output. -/
theorem stripNumsGo_ex_nonws {z : List Char} {st : NumSt} (hok : StOk st)
    (hz : ∃ x ∈ z, isWsC x = false) : ∃ y ∈ stripNumsGo st z, isWsC y = false := by
  induction z generalizing st with
  | nil =>
    rcases hz with ⟨x, hx, _⟩
    cases hx
  | cons c cs ih =>
    rw [stripNumsGo]
    by_cases hws : isWsC c = true
    · rcases hz with ⟨x, hx, hxw⟩
      rcases List.mem_cons.mp hx with rfl | hx
      · rw [hws] at hxw
        cases hxw
      · rw [numStep_ws hws]
        have := @ih (NumSt.norm false) trivial ⟨x, hx, hxw⟩
        rcases this with ⟨y, hy, hyw⟩
        exact ⟨y, by simp [List.mem_append, hy], hyw⟩
    · have hws2 : isWsC c = false := by
        cases h2 : isWsC c
        · rfl
        · exact absurd h2 hws
      by_cases hE : (numStep st c).2 = []
      · have hr2 : stRun (numStep st c).1 = true := by
          cases st with
          | norm p =>
            simp only [numStep] at hE ⊢
            by_cases hd : (c.isDigit && !p) = true
            · rw [if_pos hd]
              rfl
            · rw [if_neg hd] at hE
              simp at hE
          | run1 d1 =>
            simp only [numStep] at hE ⊢
            by_cases hd : c.isDigit = true
            · rw [if_pos hd]
              rfl
            · rw [if_neg hd] at hE ⊢
              by_cases hdot : c = '.'
              · rw [if_pos hdot]
                rfl
              · rw [if_neg hdot] at hE
                by_cases hw : isWordC c = true
                · rw [if_pos hw] at hE
                  simp at hE
                · rw [if_neg hw] at hE
                  simp at hE
          | runDot d1 =>
            simp only [numStep] at hE ⊢
            by_cases hd : c.isDigit = true
            · rw [if_pos hd]
              rfl
            · rw [if_neg hd] at hE
              by_cases hw : isWordC c = true
              · rw [if_pos hw] at hE
                simp at hE
              · rw [if_neg hw] at hE
                simp at hE
          | run2 d1 d2 =>
            simp only [numStep] at hE ⊢
            by_cases hd : c.isDigit = true
            · rw [if_pos hd]
              rfl
            · rw [if_neg hd] at hE
              by_cases hw : isWordC c = true
              · rw [if_pos hw] at hE
                simp at hE
              · rw [if_neg hw] at hE
                simp at hE
        rw [hE]
        simpa using @stripNumsGo_run_ex_nonws cs _ (numStep_StOk hok c) hr2
      · rcases List.exists_mem_of_ne_nil _ hE with ⟨y, hy⟩
        exact ⟨y, List.mem_append_left _ hy, numStep_emit_not_ws hok hws2 y hy⟩

/-! ### Collapse helpers -/

/-- Collapsing starts by copying a non-whitespace head verbatim. -/
theorem collapseGo_cons_nonws {c : Char} (h : isWsC c = false) (b : Bool) (x : List Char) :
    collapseGo b (c :: x) = c :: collapseGo false x := by
  rw [collapseGo, h]
  simp

/-- Collapsing passes over a non-whitespace chunk verbatim. -/
theorem collapseGo_append_nonws {a : List Char} (hne : a ≠ [])
    (h : ∀ x ∈ a, isWsC x = false) (b : Bool) (x : List Char) :
    collapseGo b (a ++ x) = a ++ collapseGo false x := by
  induction a generalizing b with
  | nil => exact absurd rfl hne
  | cons c cs ih =>
    rw [List.cons_append, collapseGo_cons_nonws (h c (List.mem_cons_self c cs))]
    rcases eq_or_ne cs [] with rfl | hcs
    · simp
    · rw [ih hcs (fun x hx => h x (List.mem_cons_of_mem c hx))]
      simp

/-- A list without whitespace is a collapse fixed point. -/
theorem collapseGo_eq_self_nonws {a : List Char} (h : ∀ x ∈ a, isWsC x = false) (b : Bool) :
    collapseGo b a = a := by
  rcases eq_or_ne a [] with rfl | hne
  · rfl
  · have := collapseGo_append_nonws hne h b []
    simpa [collapseGo] using this

/-! ### Trim helpers -/

/-- `trimRight` yields a sublist. -/
theorem trimRight_sublist (l : List Char) : List.Sublist (trimRight l) l := by
  induction l with
  | nil => exact List.Sublist.refl []
  | cons c cs ih =>
    rw [trimRight]
    cases h : trimRight cs with
    | nil =>
      by_cases hc : isWsC c = true
      · rw [hc]
        simp only [if_true]
        exact List.nil_sublist _
      · have hc2 : isWsC c = false := by
          cases h2 : isWsC c
          · rfl
          · exact absurd h2 hc
        rw [hc2]
        simp only [Bool.false_eq_true, if_false]
        exact (List.nil_sublist cs).cons₂ c
    | cons r rs =>
      exact (h ▸ ih).cons₂ c

/-- `trimRight` is empty exactly when the list is all-whitespace. -/
theorem trimRight_eq_nil_iff {l : List Char} :
    trimRight l = [] ↔ ∀ c ∈ l, isWsC c = true := by
  induction l with
  | nil => simp [trimRight]
  | cons c cs ih =>
    rw [trimRight]
    cases h : trimRight cs with
    | nil =>
      have hcs : ∀ x ∈ cs, isWsC x = true := ih.mp h
      by_cases hc : isWsC c = true
      · rw [hc]
        simp only [if_true]
        constructor
        · intro _ x hx
          rcases List.mem_cons.mp hx with rfl | hx
          · exact hc
          · exact hcs x hx
        · intro _
          trivial
      · have hc2 : isWsC c = false := by
          cases h2 : isWsC c
          · rfl
          · exact absurd h2 hc
        rw [hc2]
        simp only [Bool.false_eq_true, if_false]
        constructor
        · intro hcon
          cases hcon
        · intro hall
          exact absurd (hall c (List.mem_cons_self c cs)) hc
    | cons r rs =>
      constructor
      · intro hcon
        cases hcon
      · intro hall
        have : trimRight cs = [] := ih.mpr (fun x hx => hall x (List.mem_cons_of_mem c hx))
        rw [this] at h
        cases h

/-- A list without whitespace is a `trimRight` fixed point. -/
theorem trimRight_eq_self_nonws {l : List Char} (h : ∀ c ∈ l, isWsC c = false) :
    trimRight l = l := by
  induction l with
  | nil => rfl
  | cons c cs ih =>
    rw [trimRight, ih (fun x hx => h x (List.mem_cons_of_mem c hx))]
    cases cs with
    | nil => rw [h c (List.mem_cons_self c [])]; simp
    | cons r rs => rfl

/-- Trailing whitespace is invisible to `trimRight`. -/
theorem trimRight_append_ws {w : List Char} (hw : ∀ c ∈ w, isWsC c = true)
    (a : List Char) : trimRight (a ++ w) = trimRight a := by
  induction a with
  | nil =>
    simp only [List.nil_append]
    rw [trimRight_eq_nil_iff.mpr hw]
    rfl
  | cons c cs ih =>
    rw [List.cons_append, trimRight, ih, trimRight]

/-- `trimRight` distributes over an append whose right part keeps content. -/
theorem trimRight_append_of_ne {x : List Char} (hx : trimRight x ≠ [])
    (a : List Char) : trimRight (a ++ x) = a ++ trimRight x := by
  induction a with
  | nil => rfl
  | cons c cs ih =>
    rw [List.cons_append, trimRight, ih]
    cases h : cs ++ trimRight x with
    | nil =>
      rcases List.append_eq_nil.mp h with ⟨rfl, h2⟩
      exact absurd h2 hx
    | cons r rs =>
      exact congrArg (c :: ·) h.symm

/-- A list with non-whitespace content keeps a nonempty `trimRight`. -/
theorem trimRight_ne_nil {l : List Char} (h : ∃ c ∈ l, isWsC c = false) :
    trimRight l ≠ [] := by
  intro hcon
  rcases h with ⟨c, hc, hcw⟩
  rw [trimRight_eq_nil_iff.mp hcon c hc] at hcw
  cases hcw

/-- Dropping leading whitespace from a whitespace-headed list skips the head. -/
theorem trimLeft_cons_ws {c : Char} (h : isWsC c = true) (l : List Char) :
    trimLeft (c :: l) = trimLeft l := by
  simp [trimLeft, List.dropWhile, h]

/-- Dropping leading whitespace stops at a non-whitespace head. -/
theorem trimLeft_cons_nonws {c : Char} (h : isWsC c = false) (l : List Char) :
    trimLeft (c :: l) = c :: l := by
  simp [trimLeft, List.dropWhile, h]

/-- A Boolean that is not true is false. -/
theorem bool_not_true {b : Bool} (h : ¬(b = true)) : b = false := by
  cases b
  · rfl
  · exact absurd rfl h

/-- An empty emission means the scanner moved to (or stayed in) a buffering state. -/
theorem numStep_empty_run {st : NumSt} {c : Char} (hE : (numStep st c).2 = []) :
    stRun (numStep st c).1 = true := by
  cases st with
  | norm p =>
    simp only [numStep] at hE ⊢
    by_cases hd : (c.isDigit && !p) = true
    · rw [if_pos hd]
      rfl
    · rw [if_neg hd] at hE
      simp at hE
  | run1 d1 =>
    simp only [numStep] at hE ⊢
    by_cases hd : c.isDigit = true
    · rw [if_pos hd]
      rfl
    · rw [if_neg hd] at hE ⊢
      by_cases hdot : c = '.'
      · rw [if_pos hdot]
        rfl
      · rw [if_neg hdot] at hE
        by_cases hw : isWordC c = true
        · rw [if_pos hw] at hE
          simp at hE
        · rw [if_neg hw] at hE
          simp at hE
  | runDot d1 =>
    simp only [numStep] at hE ⊢
    by_cases hd : c.isDigit = true
    · rw [if_pos hd]
      rfl
    · rw [if_neg hd] at hE
      by_cases hw : isWordC c = true
      · rw [if_pos hw] at hE
        simp at hE
      · rw [if_neg hw] at hE
        simp at hE
  | run2 d1 d2 =>
    simp only [numStep] at hE ⊢
    by_cases hd : c.isDigit = true
    · rw [if_pos hd]
      rfl
    · rw [if_neg hd] at hE
      by_cases hw : isWordC c = true
      · rw [if_pos hw] at hE
        simp at hE
      · rw [if_neg hw] at hE
        simp at hE

/-- The flush never contains whitespace. -/
theorem numFlush_not_ws (st : NumSt) : ∀ x ∈ numFlush st, isWsC x = false := by
  cases st with
  | norm p =>
    intro x hx
    cases hx
  | run1 d1 =>
    intro x hx
    simp only [numFlush, List.mem_singleton] at hx
    subst hx
    decide
  | runDot d1 =>
    intro x hx
    simp only [numFlush] at hx
    rcases List.mem_cons.mp hx with rfl | hx
    · decide
    · simp only [List.mem_singleton] at hx
      subst hx
      decide
  | run2 d1 d2 =>
    intro x hx
    simp only [numFlush, List.mem_singleton] at hx
    subst hx
    decide

/-- The scanner output starts with a non-whitespace character whenever the input
does (or the scanner is mid-candidate), so left-trimming is a no-op on it. -/
theorem trimLeft_stripNumsGo {z : List Char} {st : NumSt} (hok : StOk st)
    (h : stRun st = true ∨ (∀ c, z.head? = some c → isWsC c = false)) :
    trimLeft (stripNumsGo st z) = stripNumsGo st z := by
  induction z generalizing st with
  | nil =>
    cases st with
    | norm p => rfl
    | run1 d1 => rfl
    | runDot d1 => rfl
    | run2 d1 d2 => rfl
  | cons c cs ih =>
    by_cases hws : isWsC c = true
    · have hrun : stRun st = true := by
        rcases h with h | h
        · exact h
        · rw [h c rfl] at hws
          cases hws
      rw [stripNumsGo, numStep_ws hws]
      cases st with
      | norm p => cases hrun
      | run1 d1 =>
        rw [show (numFlush (NumSt.run1 d1) ++ [c]) ++
              stripNumsGo (NumSt.norm false) cs =
            '?' :: (c :: stripNumsGo (NumSt.norm false) cs) from by simp [numFlush]]
        exact trimLeft_cons_nonws (by decide) _
      | runDot d1 =>
        rw [show (numFlush (NumSt.runDot d1) ++ [c]) ++
              stripNumsGo (NumSt.norm false) cs =
            '?' :: ('.' :: c :: stripNumsGo (NumSt.norm false) cs) from by simp [numFlush]]
        exact trimLeft_cons_nonws (by decide) _
      | run2 d1 d2 =>
        rw [show (numFlush (NumSt.run2 d1 d2) ++ [c]) ++
              stripNumsGo (NumSt.norm false) cs =
            '?' :: (c :: stripNumsGo (NumSt.norm false) cs) from by simp [numFlush]]
        exact trimLeft_cons_nonws (by decide) _
    · have hc : isWsC c = false := bool_not_true hws
      rw [stripNumsGo]
      cases hE : (numStep st c).2 with
      | nil =>
        rw [List.nil_append]
        exact ih (numStep_StOk hok c) (Or.inl (numStep_empty_run hE))
      | cons e E2 =>
        have he : isWsC e = false := by
          refine numStep_emit_not_ws hok hc e ?_
          rw [hE]
          exact List.mem_cons_self e E2
        rw [List.cons_append]
        exact trimLeft_cons_nonws he _

/-- The numeric scanner commutes with left-trimming. -/
theorem stripNums_trimLeft (z : List Char) :
    stripNums (trimLeft z) = trimLeft (stripNums z) := by
  unfold stripNums
  induction z with
  | nil => rfl
  | cons c cs ih =>
    by_cases hws : isWsC c = true
    · rw [trimLeft_cons_ws hws, stripNumsGo, numStep_ws hws]
      rw [show (numFlush (NumSt.norm false) ++ [c]) ++
            stripNumsGo (NumSt.norm false) cs =
          c :: stripNumsGo (NumSt.norm false) cs from by simp [numFlush]]
      rw [trimLeft_cons_ws hws]
      exact ih
    · have hc : isWsC c = false := bool_not_true hws
      rw [trimLeft_cons_nonws hc]
      refine (@trimLeft_stripNumsGo (c :: cs) (NumSt.norm false) (by trivial)
        (Or.inr (fun x hx => ?_))).symm
      rw [List.head?_cons] at hx
      injection hx with hx2
      subst hx2
      exact hc

/-- The numeric scanner commutes with right-trimming: trailing whitespace plays
the same word-boundary role as the end of the string. -/
theorem stripNumsGo_trimRight (z : List Char) : ∀ st, StOk st →
    stripNumsGo st (trimRight z) = trimRight (stripNumsGo st z) := by
  induction z with
  | nil =>
    intro st hok
    exact (trimRight_eq_self_nonws (numFlush_not_ws st)).symm
  | cons c cs ih =>
    intro st hok
    cases hr : trimRight cs with
    | nil =>
      have hcs : ∀ x ∈ cs, isWsC x = true := trimRight_eq_nil_iff.mp hr
      by_cases hcw : isWsC c = true
      · have hall : ∀ x ∈ (c :: cs), isWsC x = true := by
          intro x hx
          rcases List.mem_cons.mp hx with rfl | hx
          · exact hcw
          · exact hcs x hx
        have ht : trimRight (c :: cs) = [] := trimRight_eq_nil_iff.mpr hall
        rw [ht, stripNumsGo_allws hall st, trimRight_append_ws hall (numFlush st),
          trimRight_eq_self_nonws (numFlush_not_ws st)]
        rfl
      · have hc : isWsC c = false := bool_not_true hcw
        have ht : trimRight (c :: cs) = [c] := by
          rw [trimRight, hr, hc]
          simp
        rw [ht]
        have e1 : stripNumsGo st [c] =
            (numStep st c).2 ++ numFlush (numStep st c).1 := rfl
        have e2 : stripNumsGo st (c :: cs) =
            (numStep st c).2 ++ stripNumsGo (numStep st c).1 cs := rfl
        rw [e1, e2, stripNumsGo_allws hcs, ← List.append_assoc,
          trimRight_append_ws hcs]
        refine (trimRight_eq_self_nonws ?_).symm
        intro x hx
        rcases List.mem_append.mp hx with hx | hx
        · exact numStep_emit_not_ws hok hc x hx
        · exact numFlush_not_ws _ x hx
    | cons r rs =>
      have hne : trimRight cs ≠ [] := by
        rw [hr]
        simp
      have ht : trimRight (c :: cs) = c :: trimRight cs := by
        rw [trimRight, hr]
      rw [ht]
      have e1 : stripNumsGo st (c :: trimRight cs) =
          (numStep st c).2 ++ stripNumsGo (numStep st c).1 (trimRight cs) := rfl
      have e2 : stripNumsGo st (c :: cs) =
          (numStep st c).2 ++ stripNumsGo (numStep st c).1 cs := rfl
      rw [e1, e2, ih _ (numStep_StOk hok c)]
      have hx : trimRight (stripNumsGo (numStep st c).1 cs) ≠ [] := by
        refine trimRight_ne_nil ?_
        refine stripNumsGo_ex_nonws (numStep_StOk hok c) ?_
        by_contra hcon
        push_neg at hcon
        refine hne (trimRight_eq_nil_iff.mpr ?_)
        intro x hx2
        have hxne := hcon x hx2
        cases h2 : isWsC x
        · exact absurd h2 hxne
        · rfl
      rw [trimRight_append_of_ne hx]

/-- The numeric scanner commutes with right-trimming (top level). -/
theorem stripNums_trimRight (z : List Char) :
    stripNums (trimRight z) = trimRight (stripNums z) :=
  stripNumsGo_trimRight z (NumSt.norm false) (by trivial)

/-- Collapsing skips a whitespace head from outside a run by emitting one space. -/
theorem collapseGo_cons_ws_false {c : Char} (h : isWsC c = true) (x : List Char) :
    collapseGo false (c :: x) = ' ' :: collapseGo true x := by
  rw [collapseGo, h]
  simp

/-- Collapsing skips a whitespace head inside a run. -/
theorem collapseGo_cons_ws_true {c : Char} (h : isWsC c = true) (x : List Char) :
    collapseGo true (c :: x) = collapseGo true x := by
  rw [collapseGo, h]
  simp

/-- Compatibility of the collapse flags on the two sides of the scanner:
outside a candidate the flags agree (and an in-run flag forces a non-word
previous character); inside a candidate the input-side flag is fresh. -/
def stCollapseRel : NumSt → Bool → Bool → Prop
  | NumSt.norm p, b1, b2 => b1 = b2 ∧ (b1 = true → p = false)
  | NumSt.run1 _, _, b2 => b2 = false
  | NumSt.runDot _, _, b2 => b2 = false
  | NumSt.run2 _ _, _, b2 => b2 = false

/-- Buffering states are compatible with any output-side flag. -/
theorem stCollapseRel_run {st : NumSt} (h : stRun st = true) (b1 : Bool) :
    stCollapseRel st b1 false := by
  cases st with
  | norm p => cases h
  | run1 d1 => rfl
  | runDot d1 => rfl
  | run2 d1 d2 => rfl

/-- Fresh flags are always compatible. -/
theorem stCollapseRel_ff (st : NumSt) : stCollapseRel st false false := by
  cases st with
  | norm p => exact ⟨rfl, fun h => nomatch h⟩
  | run1 d1 => rfl
  | runDot d1 => rfl
  | run2 d1 d2 => rfl

/-- Whitespace step of the collapse/scan commutation for a buffering state. -/
theorem collapse_ws_run_aux {c : Char} {cs : List Char} {st : NumSt} (b1 : Bool)
    (hws : isWsC c = true) (hrun : stRun st = true)
    (hih : ∀ st2 b1 b2, StOk st2 → stCollapseRel st2 b1 b2 →
      collapseGo b1 (stripNumsGo st2 cs) = stripNumsGo st2 (collapseGo b2 cs)) :
    collapseGo b1 (stripNumsGo st (c :: cs)) =
      stripNumsGo st (collapseGo false (c :: cs)) := by
  have hFne : numFlush st ≠ [] := by
    cases st with
    | norm p => cases hrun
    | run1 d1 => simp [numFlush]
    | runDot d1 => simp [numFlush]
    | run2 d1 d2 => simp [numFlush]
  have e1 : stripNumsGo st (c :: cs) =
      numFlush st ++ (c :: stripNumsGo (NumSt.norm false) cs) := by
    rw [stripNumsGo, numStep_ws hws]
    simp
  have e3 : stripNumsGo st (' ' :: collapseGo true cs) =
      numFlush st ++ (' ' :: stripNumsGo (NumSt.norm false) (collapseGo true cs)) := by
    rw [stripNumsGo, numStep_ws (show isWsC ' ' = true from by decide)]
    simp
  rw [e1, collapseGo_append_nonws hFne (numFlush_not_ws st) b1,
    collapseGo_cons_ws_false hws, collapseGo_cons_ws_false hws, e3]
  exact congrArg (numFlush st ++ ·)
    (congrArg (' ' :: ·) (hih (NumSt.norm false) true true (by trivial) ⟨rfl, fun _ => rfl⟩))

/-- The whitespace collapse commutes with the numeric scanner: whitespace runs
and single spaces play the same boundary role on both sides. -/
theorem collapseGo_stripNumsGo (z : List Char) : ∀ st b1 b2, StOk st →
    stCollapseRel st b1 b2 →
    collapseGo b1 (stripNumsGo st z) = stripNumsGo st (collapseGo b2 z) := by
  induction z with
  | nil =>
    intro st b1 b2 hok _
    exact collapseGo_eq_self_nonws (numFlush_not_ws st) b1
  | cons c cs ih =>
    intro st b1 b2 hok hrel
    by_cases hws : isWsC c = true
    · cases st with
      | norm p =>
        obtain ⟨hb, hp⟩ := hrel
        subst hb
        have e2 : stripNumsGo (NumSt.norm p) (c :: cs) =
            c :: stripNumsGo (NumSt.norm false) cs := by
          rw [stripNumsGo, numStep_ws hws]
          simp [numFlush]
        rw [e2]
        cases b1 with
        | false =>
          rw [collapseGo_cons_ws_false hws, collapseGo_cons_ws_false hws]
          have e3 : stripNumsGo (NumSt.norm p) (' ' :: collapseGo true cs) =
              ' ' :: stripNumsGo (NumSt.norm false) (collapseGo true cs) := by
            rw [stripNumsGo, numStep_ws (show isWsC ' ' = true from by decide)]
            simp [numFlush]
          rw [e3]
          exact congrArg (' ' :: ·)
            (ih (NumSt.norm false) true true (by trivial) ⟨rfl, fun _ => rfl⟩)
        | true =>
          have hp2 : p = false := hp rfl
          subst hp2
          rw [collapseGo_cons_ws_true hws, collapseGo_cons_ws_true hws]
          exact ih (NumSt.norm false) true true (by trivial) ⟨rfl, fun _ => rfl⟩
      | run1 d1 =>
        have hb2 : b2 = false := hrel
        subst hb2
        exact collapse_ws_run_aux b1 hws rfl ih
      | runDot d1 =>
        have hb2 : b2 = false := hrel
        subst hb2
        exact collapse_ws_run_aux b1 hws rfl ih
      | run2 d1 d2 =>
        have hb2 : b2 = false := hrel
        subst hb2
        exact collapse_ws_run_aux b1 hws rfl ih
    · have hc : isWsC c = false := bool_not_true hws
      have hb2 : collapseGo b2 (c :: cs) = c :: collapseGo false cs :=
        collapseGo_cons_nonws hc b2 cs
      rw [hb2]
      have e2 : stripNumsGo st (c :: cs) =
          (numStep st c).2 ++ stripNumsGo (numStep st c).1 cs := rfl
      have e3 : stripNumsGo st (c :: collapseGo false cs) =
          (numStep st c).2 ++ stripNumsGo (numStep st c).1 (collapseGo false cs) := rfl
      rw [e2, e3]
      cases hE : (numStep st c).2 with
      | nil =>
        rw [List.nil_append, List.nil_append]
        exact ih _ b1 false (numStep_StOk hok c)
          (stCollapseRel_run (numStep_empty_run hE) b1)
      | cons e E2 =>
        have hEnws : ∀ x ∈ (e :: E2), isWsC x = false := by
          intro x hx
          refine numStep_emit_not_ws hok hc x ?_
          rw [hE]
          exact hx
        rw [collapseGo_append_nonws (by simp) hEnws b1]
        exact congrArg ((e :: E2) ++ ·)
          (ih _ false false (numStep_StOk hok c) (stCollapseRel_ff _))

/-- Top-level commutation of whitespace collapsing with the numeric scanner. -/
theorem stripNums_collapseWs (z : List Char) :
    collapseWs (stripNums z) = stripNums (collapseWs z) :=
  collapseGo_stripNumsGo z (NumSt.norm false) false false (by trivial) (stCollapseRel_ff _)

/-! ### Stability: characterising the fixed points of the numeric scanner -/

/-- `stableS mode flag l`: the scanner applied at `l` replaces nothing.
`mode = false` scans from flag `flag` (previous character was a word character);
`mode = true` checks that a started boundary digit run is a failed match, i.e.
ends directly in a word character other than a digit. -/
def stableS : Bool → Bool → List Char → Bool
  | false, _, [] => true
  | true, _, [] => false
  | false, prevW, c :: cs =>
    if c.isDigit && !prevW then stableS true false cs
    else stableS false (isWordC c) cs
  | true, _, c :: cs =>
    if c.isDigit then stableS true false cs
    else if isWordC c then stableS false true cs
    else false

/-- Scanning stability from a given flag. -/
def stableGo (p : Bool) (l : List Char) : Bool := stableS false p l

/-- Stability of the remainder of a boundary digit run. -/
def stableRun (l : List Char) : Bool := stableS true false l

/-- Unfolding: stability on a cons from scan mode. -/
theorem stableGo_cons (p : Bool) (c : Char) (cs : List Char) :
    stableGo p (c :: cs) =
      if c.isDigit && !p then stableRun cs else stableGo (isWordC c) cs := rfl

/-- Unfolding: stability of a run remainder on a cons. -/
theorem stableRun_cons (c : Char) (cs : List Char) :
    stableRun (c :: cs) =
      if c.isDigit then stableRun cs
      else if isWordC c then stableGo true cs else false := rfl

/-- The scanner leaves a stable list unchanged (fuel-indexed mutual induction). -/
theorem stable_fix_aux : ∀ n z, z.length ≤ n →
    (∀ p, stableGo p z = true → stripNumsGo (NumSt.norm p) z = z) ∧
    (∀ d1, stableRun z = true → stripNumsGo (NumSt.run1 d1) z = d1.reverse ++ z) := by
  intro n
  induction n with
  | zero =>
    intro z hz
    have hznil : z = [] := List.length_eq_zero.mp (Nat.le_zero.mp hz)
    subst hznil
    exact ⟨fun p _ => rfl, fun d1 hcon => nomatch hcon⟩
  | succ n ihn =>
    intro z hz
    cases z with
    | nil =>
      exact ⟨fun p _ => rfl, fun d1 hcon => nomatch hcon⟩
    | cons c cs =>
      have hcs : cs.length ≤ n := by
        have : cs.length + 1 ≤ n + 1 := by simpa using hz
        omega
      constructor
      · intro p hst
        rw [stableGo_cons] at hst
        by_cases hd : (c.isDigit && !p) = true
        · rw [if_pos hd] at hst
          have e1 : stripNumsGo (NumSt.norm p) (c :: cs) =
              stripNumsGo (NumSt.run1 [c]) cs := by
            rw [stripNumsGo, numStep, if_pos hd]
            simp
          rw [e1, (ihn cs hcs).2 [c] hst]
          simp
        · rw [if_neg hd] at hst
          have e1 : stripNumsGo (NumSt.norm p) (c :: cs) =
              c :: stripNumsGo (NumSt.norm (isWordC c)) cs := by
            rw [stripNumsGo, numStep, if_neg hd]
            simp
          rw [e1, (ihn cs hcs).1 (isWordC c) hst]
      · intro d1 hst
        rw [stableRun_cons] at hst
        by_cases hd : c.isDigit = true
        · rw [if_pos hd] at hst
          have e1 : stripNumsGo (NumSt.run1 d1) (c :: cs) =
              stripNumsGo (NumSt.run1 (c :: d1)) cs := by
            rw [stripNumsGo, numStep, if_pos hd]
            simp
          rw [e1, (ihn cs hcs).2 (c :: d1) hst]
          simp
        · rw [if_neg hd] at hst
          by_cases hw : isWordC c = true
          · rw [if_pos hw] at hst
            have hdot : ¬(c = '.') := by
              intro hcon
              rw [hcon] at hw
              exact absurd hw (by decide)
            have e1 : stripNumsGo (NumSt.run1 d1) (c :: cs) =
                (d1.reverse ++ [c]) ++ stripNumsGo (NumSt.norm true) cs := by
              rw [stripNumsGo, numStep, if_neg hd, if_neg hdot, if_pos hw]
            rw [e1, (ihn cs hcs).1 true hst]
            simp
          · rw [if_neg hw] at hst
            cases hst

/-- The scanner leaves a stable list unchanged. -/
theorem stableGo_fix {z : List Char} {p : Bool} (h : stableGo p z = true) :
    stripNumsGo (NumSt.norm p) z = z :=
  (stable_fix_aux z.length z (le_refl _)).1 p h

/-- The flag the previous output character induces for each state. -/
def stFlag : NumSt → Bool
  | NumSt.norm p => p
  | _ => false

/-- A digit block is transparent to run-stability checking. -/
theorem stableRun_digits {ds : List Char} (h : digitsOnly ds) (l : List Char) :
    stableRun (ds ++ l) = stableRun l := by
  induction ds with
  | nil => rfl
  | cons d ds2 ih =>
    rw [List.cons_append, stableRun_cons, if_pos (h d (List.mem_cons_self d ds2))]
    exact ih (fun x hx => h x (List.mem_cons_of_mem d hx))

/-- From a fresh flag, a nonempty digit block starts a run check. -/
theorem stableGo_digits {ds : List Char} (hne : ds ≠ []) (h : digitsOnly ds)
    (l : List Char) : stableGo false (ds ++ l) = stableRun l := by
  cases ds with
  | nil => exact absurd rfl hne
  | cons d ds2 =>
    rw [List.cons_append, stableGo_cons,
      if_pos (by rw [h d (List.mem_cons_self d ds2)]; rfl)]
    exact stableRun_digits (fun x hx => h x (List.mem_cons_of_mem d hx)) l

/-- The reverse of a digit buffer is a nonempty digit block. -/
theorem digitsOnly_reverse {ds : List Char} (h : digitsOnly ds) :
    digitsOnly ds.reverse := fun x hx => h x (List.mem_reverse.mp hx)

/-- Scanner output is stable: replacing numeric literals once leaves nothing
further for the scanner to replace. -/
theorem stable_output (z : List Char) : ∀ st, StOk st →
    stableGo (stFlag st) (stripNumsGo st z) = true := by
  induction z with
  | nil =>
    intro st hok
    cases st with
    | norm p => rfl
    | run1 d1 => rfl
    | runDot d1 => rfl
    | run2 d1 d2 => rfl
  | cons c cs ih =>
    intro st hok
    cases st with
    | norm p =>
      by_cases hd : (c.isDigit && !p) = true
      · have hp : p = false := by
          simp only [Bool.and_eq_true, Bool.not_eq_true'] at hd
          exact hd.2
        subst hp
        have e1 : stripNumsGo (NumSt.norm false) (c :: cs) =
            stripNumsGo (NumSt.run1 [c]) cs := by
          rw [stripNumsGo, numStep, if_pos hd]
          simp
        rw [e1]
        refine ih (NumSt.run1 [c]) ⟨by simp, ?_⟩
        intro x hx
        simp only [List.mem_singleton] at hx
        subst hx
        simp only [Bool.and_eq_true] at hd
        exact hd.1
      · have e1 : stripNumsGo (NumSt.norm p) (c :: cs) =
            c :: stripNumsGo (NumSt.norm (isWordC c)) cs := by
          rw [stripNumsGo, numStep, if_neg hd]
          simp
        rw [e1]
        show stableGo p (c :: stripNumsGo (NumSt.norm (isWordC c)) cs) = true
        rw [stableGo_cons, if_neg hd]
        exact ih (NumSt.norm (isWordC c)) trivial
    | run1 d1 =>
      obtain ⟨hne, hdig⟩ := hok
      by_cases hd : c.isDigit = true
      · have e1 : stripNumsGo (NumSt.run1 d1) (c :: cs) =
            stripNumsGo (NumSt.run1 (c :: d1)) cs := by
          rw [stripNumsGo, numStep, if_pos hd]
          simp
        rw [e1]
        refine ih (NumSt.run1 (c :: d1)) ⟨by simp, ?_⟩
        intro x hx
        rcases List.mem_cons.mp hx with rfl | hx
        · exact hd
        · exact hdig x hx
      · by_cases hdot : c = '.'
        · have e1 : stripNumsGo (NumSt.run1 d1) (c :: cs) =
              stripNumsGo (NumSt.runDot d1) cs := by
            rw [stripNumsGo, numStep, if_neg hd, if_pos hdot]
            simp
          rw [e1]
          exact ih (NumSt.runDot d1) ⟨hne, hdig⟩
        · by_cases hw : isWordC c = true
          · have e1 : stripNumsGo (NumSt.run1 d1) (c :: cs) =
                d1.reverse ++ ([c] ++ stripNumsGo (NumSt.norm true) cs) := by
              rw [stripNumsGo, numStep, if_neg hd, if_neg hdot, if_pos hw]
              simp
            rw [e1]
            show stableGo false
              (d1.reverse ++ (c :: stripNumsGo (NumSt.norm true) cs)) = true
            rw [stableGo_digits (by simp [hne]) (digitsOnly_reverse hdig),
              stableRun_cons, if_neg hd, if_pos hw]
            exact ih (NumSt.norm true) trivial
          · have e1 : stripNumsGo (NumSt.run1 d1) (c :: cs) =
                '?' :: (c :: stripNumsGo (NumSt.norm false) cs) := by
              rw [stripNumsGo, numStep, if_neg hd, if_neg hdot, if_neg hw]
              simp
            rw [e1]
            show stableGo false (c :: stripNumsGo (NumSt.norm false) cs) = true
            rw [stableGo_cons, if_neg (by simp [hd]), bool_not_true hw]
            exact ih (NumSt.norm false) trivial
    | runDot d1 =>
      obtain ⟨hne, hdig⟩ := hok
      by_cases hd : c.isDigit = true
      · have e1 : stripNumsGo (NumSt.runDot d1) (c :: cs) =
            stripNumsGo (NumSt.run2 d1 [c]) cs := by
          rw [stripNumsGo, numStep, if_pos hd]
          simp
        rw [e1]
        refine ih (NumSt.run2 d1 [c]) ⟨⟨hne, hdig⟩, by simp, ?_⟩
        intro x hx
        simp only [List.mem_singleton] at hx
        subst hx
        exact hd
      · by_cases hw : isWordC c = true
        · have e1 : stripNumsGo (NumSt.runDot d1) (c :: cs) =
              '?' :: (c :: stripNumsGo (NumSt.norm true) cs) := by
            rw [stripNumsGo, numStep, if_neg hd, if_pos hw]
            simp
          rw [e1]
          show stableGo false (c :: stripNumsGo (NumSt.norm true) cs) = true
          rw [stableGo_cons, if_neg (by simp [hd]), hw]
          exact ih (NumSt.norm true) trivial
        · have e1 : stripNumsGo (NumSt.runDot d1) (c :: cs) =
              '?' :: ('.' :: (c :: stripNumsGo (NumSt.norm false) cs)) := by
            rw [stripNumsGo, numStep, if_neg hd, if_neg hw]
            simp
          rw [e1]
          show stableGo false (c :: stripNumsGo (NumSt.norm false) cs) = true
          rw [stableGo_cons, if_neg (by simp [hd]), bool_not_true hw]
          exact ih (NumSt.norm false) trivial
    | run2 d1 d2 =>
      obtain ⟨hok1, hne2, hdig2⟩ := hok
      by_cases hd : c.isDigit = true
      · have e1 : stripNumsGo (NumSt.run2 d1 d2) (c :: cs) =
            stripNumsGo (NumSt.run2 d1 (c :: d2)) cs := by
          rw [stripNumsGo, numStep, if_pos hd]
          simp
        rw [e1]
        refine ih (NumSt.run2 d1 (c :: d2)) ⟨hok1, by simp, ?_⟩
        intro x hx
        rcases List.mem_cons.mp hx with rfl | hx
        · exact hd
        · exact hdig2 x hx
      · by_cases hw : isWordC c = true
        · have e1 : stripNumsGo (NumSt.run2 d1 d2) (c :: cs) =
              '?' :: (d2.reverse ++ ([c] ++ stripNumsGo (NumSt.norm true) cs)) := by
            rw [stripNumsGo, numStep, if_neg hd, if_pos hw]
            simp
          rw [e1]
          show stableGo false
            (d2.reverse ++ (c :: stripNumsGo (NumSt.norm true) cs)) = true
          rw [stableGo_digits (by simp [hne2]) (digitsOnly_reverse hdig2),
            stableRun_cons, if_neg hd, if_pos hw]
          exact ih (NumSt.norm true) trivial
        · have e1 : stripNumsGo (NumSt.run2 d1 d2) (c :: cs) =
              '?' :: (c :: stripNumsGo (NumSt.norm false) cs) := by
            rw [stripNumsGo, numStep, if_neg hd, if_neg hw]
            simp
          rw [e1]
          show stableGo false (c :: stripNumsGo (NumSt.norm false) cs) = true
          rw [stableGo_cons, if_neg (by simp [hd]), bool_not_true hw]
          exact ih (NumSt.norm false) trivial

/-- The numeric scanner is idempotent. -/
theorem stripNums_idem (z : List Char) : stripNums (stripNums z) = stripNums z :=
  stableGo_fix (stable_output z (NumSt.norm false) (by trivial))

/-! ### Quote counting: the string-literal stage -/

/-- `splitOnQuote` never returns the empty list. -/
theorem splitOnQuote_ne_nil (l : List Char) : splitOnQuote l ≠ [] := by
  cases l with
  | nil => simp [splitOnQuote]
  | cons c cs =>
    rw [splitOnQuote]
    by_cases h : c = quoteChar
    · rw [if_pos h]
      simp
    · rw [if_neg h]
      cases h2 : splitOnQuote cs <;> simp

/-- The chunks of `splitOnQuote` contain no quotes. -/
theorem splitOnQuote_parts_noquote (l : List Char) :
    ∀ p ∈ splitOnQuote l, quoteChar ∉ p := by
  induction l with
  | nil =>
    intro p hp
    simp only [splitOnQuote, List.mem_singleton] at hp
    subst hp
    simp
  | cons c cs ih =>
    intro p hp
    rw [splitOnQuote] at hp
    by_cases h : c = quoteChar
    · rw [if_pos h] at hp
      rcases List.mem_cons.mp hp with rfl | hp
      · simp
      · exact ih p hp
    · rw [if_neg h] at hp
      cases h2 : splitOnQuote cs with
      | nil => exact absurd h2 (splitOnQuote_ne_nil cs)
      | cons q qs =>
        rw [h2] at hp
        rcases List.mem_cons.mp hp with rfl | hp
        · intro hmem
          rcases List.mem_cons.mp hmem with h3 | h3
          · exact h h3.symm
          · refine ih q ?_ h3
            rw [h2]
            exact List.mem_cons_self q qs
        · refine ih p ?_
          rw [h2]
          exact List.mem_cons_of_mem q hp

/-- Reassembly peels a common head character. -/
theorem rejoin_cons (c : Char) (p : List Char) (ps : List (List Char)) :
    rejoinQuoted ((c :: p) :: ps) = c :: rejoinQuoted (p :: ps) := by
  cases ps with
  | nil => rfl
  | cons q qs =>
    cases qs with
    | nil => rfl
    | cons r rs => rfl

/-- `stripStrings` passes a non-quote head through. -/
theorem stripStrings_cons_ne {c : Char} (h : ¬(c = quoteChar)) (cs : List Char) :
    stripStrings (c :: cs) = c :: stripStrings cs := by
  unfold stripStrings
  rw [splitOnQuote, if_neg h]
  cases h2 : splitOnQuote cs with
  | nil => exact absurd h2 (splitOnQuote_ne_nil cs)
  | cons q qs => rw [rejoin_cons]

/-- A quote-free list splits into a single chunk. -/
theorem splitOnQuote_noquote {l : List Char} (h : quoteChar ∉ l) :
    splitOnQuote l = [l] := by
  induction l with
  | nil => rfl
  | cons c cs ih =>
    have hc : ¬(c = quoteChar) := by
      intro hc
      refine h ?_
      rw [← hc]
      exact List.mem_cons_self c cs
    rw [splitOnQuote, if_neg hc, ih (fun hm => h (List.mem_cons_of_mem c hm))]

/-- A list with at most one quote has no string literal, so `stripStrings`
leaves it unchanged. -/
theorem stripStrings_fix {l : List Char} (h : l.count quoteChar ≤ 1) :
    stripStrings l = l := by
  induction l with
  | nil => rfl
  | cons c cs ih =>
    by_cases hc : c = quoteChar
    · subst hc
      have hcnt : cs.count quoteChar = 0 := by
        rw [List.count_cons] at h
        simp only [beq_self_eq_true, if_true] at h
        omega
      have hnq : quoteChar ∉ cs := List.count_eq_zero.mp hcnt
      unfold stripStrings
      rw [splitOnQuote, if_pos rfl, splitOnQuote_noquote hnq]
      rfl
    · rw [stripStrings_cons_ne hc]
      refine congrArg (c :: ·) (ih ?_)
      rw [List.count_cons, if_neg (show ¬((c == quoteChar) = true) from by
        simp [hc])] at h
      omega

/-- Reassembling quote-free chunks yields at most one quote (the possible final
unpaired one). -/
theorem rejoin_count : ∀ ps : List (List Char), (∀ p ∈ ps, quoteChar ∉ p) →
    (rejoinQuoted ps).count quoteChar ≤ 1
  | [], _ => by simp [rejoinQuoted]
  | [p], h => by
      rw [show rejoinQuoted [p] = p from rfl,
        List.count_eq_zero.mpr (h p (by simp))]
      omega
  | [p, q], h => by
      rw [show rejoinQuoted [p, q] = p ++ quoteChar :: q from rfl,
        List.count_append, List.count_cons,
        List.count_eq_zero.mpr (h p (by simp)),
        List.count_eq_zero.mpr (h q (by simp))]
      simp
  | p :: q :: r :: rs, h => by
      have ihr := rejoin_count (r :: rs) (fun x hx => h x (by simp [hx]))
      rw [show rejoinQuoted (p :: q :: r :: rs) =
          p ++ '?' :: rejoinQuoted (r :: rs) from rfl,
        List.count_append, List.count_cons,
        List.count_eq_zero.mpr (h p (by simp)),
        if_neg (show ¬(('?' == quoteChar) = true) from by decide)]
      omega

/-- The output of the string-literal stage has at most one quote. -/
theorem stripStrings_count (l : List Char) :
    (stripStrings l).count quoteChar ≤ 1 :=
  rejoin_count (splitOnQuote l) (splitOnQuote_parts_noquote l)

/-- Digits are not quotes. -/
theorem digit_ne_quote {x : Char} (h : x.isDigit = true) : ¬(x = quoteChar) := by
  intro hq
  rw [hq] at h
  exact absurd h (by decide)

/-- One scanner step emits at most the quotes of the consumed character. -/
theorem numStep_emit_count {st : NumSt} {c : Char} (hok : StOk st) :
    ((numStep st c).2).count quoteChar ≤ List.count quoteChar [c] := by
  have hdig : ∀ ds : List Char, digitsOnly ds → List.count quoteChar ds.reverse = 0 := by
    intro ds hds
    refine List.count_eq_zero.mpr ?_
    intro hmem
    exact digit_ne_quote (hds quoteChar (List.mem_reverse.mp hmem)) rfl
  cases st with
  | norm p =>
    simp only [numStep]
    by_cases hd : (c.isDigit && !p) = true
    · rw [if_pos hd]
      simp
    · rw [if_neg hd]
  | run1 d1 =>
    simp only [numStep]
    by_cases hd : c.isDigit = true
    · rw [if_pos hd]
      simp
    · rw [if_neg hd]
      by_cases hdot : c = '.'
      · rw [if_pos hdot]
        simp
      · rw [if_neg hdot]
        by_cases hw : isWordC c = true
        · rw [if_pos hw]
          rw [List.count_append, hdig d1 hok.2]
          omega
        · rw [if_neg hw]
          rw [show (['?', c] : List Char) = ['?'] ++ [c] from rfl, List.count_append,
            show List.count quoteChar ['?'] = 0 from by decide]
          omega
  | runDot d1 =>
    simp only [numStep]
    by_cases hd : c.isDigit = true
    · rw [if_pos hd]
      simp
    · rw [if_neg hd]
      by_cases hw : isWordC c = true
      · rw [if_pos hw]
        rw [show (['?', c] : List Char) = ['?'] ++ [c] from rfl, List.count_append,
          show List.count quoteChar ['?'] = 0 from by decide]
        omega
      · rw [if_neg hw]
        rw [show (['?', '.', c] : List Char) = ['?', '.'] ++ [c] from rfl, List.count_append,
          show List.count quoteChar ['?', '.'] = 0 from by decide]
        omega
  | run2 d1 d2 =>
    simp only [numStep]
    by_cases hd : c.isDigit = true
    · rw [if_pos hd]
      simp
    · rw [if_neg hd]
      by_cases hw : isWordC c = true
      · rw [if_pos hw]
        rw [show ('?' :: (d2.reverse ++ [c]) : List Char) =
            ['?'] ++ (d2.reverse ++ [c]) from rfl, List.count_append, List.count_append,
          show List.count quoteChar ['?'] = 0 from by decide, hdig d2 hok.2.2]
        omega
      · rw [if_neg hw]
        rw [show (['?', c] : List Char) = ['?'] ++ [c] from rfl, List.count_append,
          show List.count quoteChar ['?'] = 0 from by decide]
        omega

/-- The flush contains no quotes. -/
theorem numFlush_count (st : NumSt) : (numFlush st).count quoteChar = 0 := by
  cases st with
  | norm p => rfl
  | run1 d1 =>
    rw [show numFlush (NumSt.run1 d1) = ['?'] from rfl]
    decide
  | runDot d1 =>
    rw [show numFlush (NumSt.runDot d1) = ['?', '.'] from rfl]
    decide
  | run2 d1 d2 =>
    rw [show numFlush (NumSt.run2 d1 d2) = ['?'] from rfl]
    decide

/-- The scanner does not increase the number of quotes. -/
theorem stripNumsGo_count (z : List Char) : ∀ st, StOk st →
    (stripNumsGo st z).count quoteChar ≤ z.count quoteChar := by
  induction z with
  | nil =>
    intro st hok
    rw [show stripNumsGo st [] = numFlush st from rfl, numFlush_count]
    exact Nat.zero_le _
  | cons c cs ih =>
    intro st hok
    rw [show stripNumsGo st (c :: cs) =
        (numStep st c).2 ++ stripNumsGo (numStep st c).1 cs from rfl,
      List.count_append, List.count_cons]
    have h1 := @numStep_emit_count st c hok
    have h2 := ih (numStep st c).1 (numStep_StOk hok c)
    rw [List.count_cons, List.count_nil] at h1
    by_cases hc : (c == quoteChar) = true
    · rw [if_pos hc] at h1 ⊢
      omega
    · rw [if_neg hc] at h1 ⊢
      omega

/-- Whitespace collapsing does not increase the number of quotes. -/
theorem collapseGo_count (z : List Char) : ∀ b,
    (collapseGo b z).count quoteChar ≤ z.count quoteChar := by
  induction z with
  | nil =>
    intro b
    simp [collapseGo]
  | cons c cs ih =>
    intro b
    by_cases hws : isWsC c = true
    · have hle : (collapseGo true cs).count quoteChar ≤ (c :: cs).count quoteChar := by
        refine le_trans (ih true) ?_
        rw [List.count_cons]
        omega
      cases b with
      | true =>
        rw [collapseGo_cons_ws_true hws]
        exact hle
      | false =>
        rw [collapseGo_cons_ws_false hws, List.count_cons,
          if_neg (show ¬((' ' == quoteChar) = true) from by decide)]
        simpa using hle
    · rw [collapseGo_cons_nonws (bool_not_true hws), List.count_cons, List.count_cons]
      have := ih false
      by_cases hc : (c == quoteChar) = true
      · omega
      · omega

/-- The fingerprint pipeline output has at most one quote. -/
theorem fpChars_count (l : List Char) : (fpChars l).count quoteChar ≤ 1 := by
  have h5 : (fpChars l).count quoteChar ≤
      (trimLeft (collapseWs (stripNums (stripStrings l)))).count quoteChar :=
    (trimRight_sublist _).count_le quoteChar
  have h4 : (trimLeft (collapseWs (stripNums (stripStrings l)))).count quoteChar ≤
      (collapseWs (stripNums (stripStrings l))).count quoteChar :=
    List.Sublist.count_le (List.dropWhile_sublist _) quoteChar
  have h3 : (collapseWs (stripNums (stripStrings l))).count quoteChar ≤
      (stripNums (stripStrings l)).count quoteChar :=
    collapseGo_count _ false
  have h2 : (stripNums (stripStrings l)).count quoteChar ≤
      (stripStrings l).count quoteChar :=
    stripNumsGo_count _ (NumSt.norm false) (by trivial)
  exact le_trans h5 (le_trans h4 (le_trans h3 (le_trans h2 (stripStrings_count l))))

/-! ### Collapsed and trimmed normal forms -/

/-- A list is collapsed (from context flag `b`): every whitespace character is a
single space not preceded by whitespace (`b` records whether the previous
character was whitespace). -/
def collapsedP : Bool → List Char → Bool
  | _, [] => true
  | b, c :: cs =>
    if isWsC c then (!b && (c == ' ')) && collapsedP true cs
    else collapsedP false cs

/-- Collapsing produces a collapsed list. -/
theorem collapsedP_collapseGo (z : List Char) : ∀ b,
    collapsedP b (collapseGo b z) = true := by
  induction z with
  | nil =>
    intro b
    rfl
  | cons c cs ih =>
    intro b
    by_cases hws : isWsC c = true
    · cases b with
      | true =>
        rw [collapseGo_cons_ws_true hws]
        exact ih true
      | false =>
        rw [collapseGo_cons_ws_false hws]
        rw [show collapsedP false (' ' :: collapseGo true cs) =
            ((!false && (' ' == ' ')) && collapsedP true (collapseGo true cs)) from by
          rw [collapsedP, if_pos (show isWsC ' ' = true from by decide)]]
        rw [ih true]
        decide
    · rw [collapseGo_cons_nonws (bool_not_true hws)]
      rw [show collapsedP b (c :: collapseGo false cs) =
          collapsedP false (collapseGo false cs) from by
        rw [collapsedP, if_neg hws]]
      exact ih false

/-- A collapsed list is a collapse fixed point. -/
theorem collapsedP_fix (z : List Char) : ∀ b, collapsedP b z = true →
    collapseGo b z = z := by
  induction z with
  | nil =>
    intro b _
    rfl
  | cons c cs ih =>
    intro b h
    by_cases hws : isWsC c = true
    · rw [collapsedP, if_pos hws] at h
      simp only [Bool.and_eq_true, Bool.not_eq_true', beq_iff_eq] at h
      obtain ⟨⟨hb, hsp⟩, hrest⟩ := h
      subst hb
      subst hsp
      rw [collapseGo_cons_ws_false hws, ih true hrest]
    · rw [collapsedP, if_neg hws] at h
      rw [collapseGo_cons_nonws (bool_not_true hws), ih false h]

/-- A list collapsed in run context is collapsed in fresh context. -/
theorem collapsedP_weaken (z : List Char) (h : collapsedP true z = true) :
    collapsedP false z = true := by
  cases z with
  | nil => rfl
  | cons c cs =>
    by_cases hws : isWsC c = true
    · rw [collapsedP, if_pos hws] at h
      simp at h
    · rw [collapsedP, if_neg hws] at h ⊢
      exact h

/-- Left-trimming preserves collapsedness. -/
theorem collapsedP_trimLeft (z : List Char) (h : collapsedP false z = true) :
    collapsedP false (trimLeft z) = true := by
  induction z with
  | nil => rfl
  | cons c cs ih =>
    by_cases hws : isWsC c = true
    · rw [collapsedP, if_pos hws] at h
      simp only [Bool.and_eq_true, Bool.not_eq_true', beq_iff_eq] at h
      rw [trimLeft_cons_ws hws]
      exact ih (collapsedP_weaken cs h.2)
    · rw [trimLeft_cons_nonws (bool_not_true hws)]
      exact h

/-- Right-trimming preserves collapsedness. -/
theorem collapsedP_trimRight (z : List Char) : ∀ b, collapsedP b z = true →
    collapsedP b (trimRight z) = true := by
  induction z with
  | nil =>
    intro b _
    rfl
  | cons c cs ih =>
    intro b h
    cases hr : trimRight cs with
    | nil =>
      by_cases hws : isWsC c = true
      · rw [trimRight, hr, if_pos hws]
        rfl
      · rw [trimRight, hr, if_neg hws]
        rw [collapsedP, if_neg hws]
        rfl
    | cons r rs =>
      have ht : trimRight (c :: cs) = c :: trimRight cs := by
        rw [trimRight, hr]
      rw [ht]
      by_cases hws : isWsC c = true
      · rw [collapsedP, if_pos hws] at h ⊢
        simp only [Bool.and_eq_true, Bool.not_eq_true', beq_iff_eq] at h ⊢
        exact ⟨h.1, ih true h.2⟩
      · rw [collapsedP, if_neg hws] at h ⊢
        exact ih false h

/-- Left-trimming is idempotent. -/
theorem trimLeft_idem (v : List Char) : trimLeft (trimLeft v) = trimLeft v := by
  induction v with
  | nil => rfl
  | cons c cs ih =>
    by_cases hws : isWsC c = true
    · rw [trimLeft_cons_ws hws]
      exact ih
    · rw [trimLeft_cons_nonws (bool_not_true hws),
        trimLeft_cons_nonws (bool_not_true hws)]

/-- Right-trimming is idempotent. -/
theorem trimRight_idem (v : List Char) : trimRight (trimRight v) = trimRight v := by
  induction v with
  | nil => rfl
  | cons c cs ih =>
    cases hr : trimRight cs with
    | nil =>
      by_cases hws : isWsC c = true
      · rw [trimRight, hr, if_pos hws]
        rfl
      · rw [trimRight, hr, if_neg hws]
        rw [trimRight]
        rw [show trimRight [] = ([] : List Char) from rfl, if_neg hws]
    | cons r rs =>
      have ht : trimRight (c :: cs) = c :: trimRight cs := by
        rw [trimRight, hr]
      rw [ht, trimRight, ih, hr]

/-- Right-trimming a left-trimmed list keeps it left-trimmed. -/
theorem trimLeft_trimRight_of_fix {y : List Char} (hy : trimLeft y = y) :
    trimLeft (trimRight y) = trimRight y := by
  cases y with
  | nil => rfl
  | cons c cs =>
    have hc : isWsC c = false := by
      cases h2 : isWsC c
      · rfl
      · rw [trimLeft_cons_ws h2] at hy
        have hlen := congrArg List.length hy
        have hle : (trimLeft cs).length ≤ cs.length :=
          (List.dropWhile_sublist _).length_le
        simp only [List.length_cons] at hlen
        omega
    cases hr : trimRight cs with
    | nil =>
      rw [trimRight, hr, if_neg (by rw [hc]; exact fun hcon => nomatch hcon)]
      exact trimLeft_cons_nonws hc []
    | cons r rs =>
      rw [trimRight, hr]
      exact trimLeft_cons_nonws hc _

/-- Trimming both sides is idempotent. -/
theorem trimBoth_idem (v : List Char) : trimBoth (trimBoth v) = trimBoth v := by
  unfold trimBoth
  rw [trimLeft_trimRight_of_fix (trimLeft_idem v), trimRight_idem]

/-- The character-level fingerprint pipeline is idempotent. -/
theorem fpChars_idem (l : List Char) : fpChars (fpChars l) = fpChars l := by
  have hSS : stripStrings (fpChars l) = fpChars l :=
    stripStrings_fix (fpChars_count l)
  have hSN : stripNums (fpChars l) = fpChars l := by
    unfold fpChars trimBoth
    rw [stripNums_trimRight, stripNums_trimLeft, ← stripNums_collapseWs,
      stripNums_idem]
  show trimBoth (collapseWs (stripNums (stripStrings (fpChars l)))) = fpChars l
  rw [hSS, hSN]
  have hcol : collapseWs (fpChars l) = fpChars l := by
    refine collapsedP_fix _ false ?_
    unfold fpChars trimBoth
    exact collapsedP_trimRight _ false
      (collapsedP_trimLeft _ (collapsedP_collapseGo _ false))
  rw [hcol]
  unfold fpChars
  exact trimBoth_idem _

/-- C5: `fingerprintQuery` is idempotent: fingerprinting a fingerprint returns
it unchanged. -/
theorem fingerprintQuery_idem (x : String) :
    fingerprintQuery (fingerprintQuery x) = fingerprintQuery x := by
  by_cases hx : x.data.isEmpty = true
  · have h1 : fingerprintQuery x = "" := by
      unfold fingerprintQuery
      rw [if_pos hx]
    rw [h1]
    rfl
  · have hx2 : x.data.isEmpty = false := bool_not_true hx
    have h1 : fingerprintQuery x = String.mk (fpChars x.data) := by
      simp [fingerprintQuery, hx2]
    rw [h1]
    by_cases hw : (String.mk (fpChars x.data)).data.isEmpty = true
    · have hnil : fpChars x.data = [] := List.isEmpty_iff.mp hw
      have h2 : fingerprintQuery (String.mk (fpChars x.data)) = "" := by
        unfold fingerprintQuery
        rw [if_pos hw]
      rw [h2, hnil]
    · have hw2 : (String.mk (fpChars x.data)).data.isEmpty = false := bool_not_true hw
      have h2 : fingerprintQuery (String.mk (fpChars x.data)) =
          String.mk (fpChars (String.mk (fpChars x.data)).data) := by
        simp [fingerprintQuery, hw2]
      rw [h2]
      rw [show (String.mk (fpChars x.data)).data = fpChars x.data from rfl]
      rw [fpChars_idem]

/-! ### Statement templates: raw text, string literals, numeric literals and
whitespace runs.  These model the statement shapes over which the literal- and
whitespace-invariance of `fingerprintQuery` can be stated. -/

/-- A template segment: a raw character, a quoted string literal with content
`v`, a numeric literal `v`, or a whitespace run `v`. -/
inductive Seg where
  | raw (c : Char)
  | lit (v : List Char)
  | num (v : List Char)
  | ws (v : List Char)

/-- The text of one segment. -/
def renderSeg : Seg → List Char
  | Seg.raw c => [c]
  | Seg.lit v => quoteChar :: (v ++ [quoteChar])
  | Seg.num v => v
  | Seg.ws v => v

/-- The text of a template. -/
def render : List Seg → List Char
  | [] => []
  | s :: rest => renderSeg s ++ render rest

/-- One segment after the string-literal stage (each literal becomes `?`). -/
def rsRenderSeg : Seg → List Char
  | Seg.raw c => [c]
  | Seg.lit _ => ['?']
  | Seg.num v => v
  | Seg.ws v => v

/-- A template after the string-literal stage. -/
def rsRender : List Seg → List Char
  | [] => []
  | s :: rest => rsRenderSeg s ++ rsRender rest

/-- A well-formed numeric literal: digits, or digits, a dot and digits. -/
def numLit (v : List Char) : Prop :=
  (v ≠ [] ∧ digitsOnly v) ∨
  ∃ d1 d2, v = d1 ++ '.' :: d2 ∧ d1 ≠ [] ∧ d2 ≠ [] ∧ digitsOnly d1 ∧ digitsOnly d2

/-- Per-segment well-formedness: literals are quote-free, numerals well-formed,
whitespace runs nonempty, raw characters are not quotes. -/
def wfSeg : Seg → Prop
  | Seg.raw c => ¬(c = quoteChar)
  | Seg.lit v => quoteChar ∉ v
  | Seg.num v => numLit v
  | Seg.ws v => v ≠ [] ∧ ∀ c ∈ v, isWsC c = true

/-- May a segment stand directly before a numeric literal?  Its last rendered
character must be a non-word, non-dot character (so the `\b` boundary before
the numeral holds and no dot or digit merges into it). -/
def okBeforeNum : Seg → Prop
  | Seg.raw c => isWordC c = false ∧ ¬(c = '.')
  | Seg.lit _ => True
  | Seg.num _ => False
  | Seg.ws _ => True

/-- May a segment stand directly after a numeric literal?  Its first rendered
character must be a non-word, non-dot character. -/
def okAfterNum : Seg → Prop
  | Seg.raw c => isWordC c = false ∧ ¬(c = '.')
  | Seg.lit _ => True
  | Seg.num _ => False
  | Seg.ws _ => True

/-- Adjacency constraint between consecutive segments. -/
def wfAdj (a b : Seg) : Prop :=
  (match b with
   | Seg.num _ => okBeforeNum a
   | _ => True) ∧
  (match a with
   | Seg.num _ => okAfterNum b
   | _ => True)

/-- Well-formedness of a whole template. -/
def wfSeq : List Seg → Prop
  | [] => True
  | [s] => wfSeg s
  | s :: t :: rest => wfSeg s ∧ wfAdj s t ∧ wfSeq (t :: rest)

/-- The head segment of a well-formed template is well-formed. -/
theorem wfSeq_head {s : Seg} {rest : List Seg} (h : wfSeq (s :: rest)) : wfSeg s := by
  cases rest with
  | nil => exact h
  | cons t r => exact h.1

/-- The tail of a well-formed template is well-formed. -/
theorem wfSeq_tail {s : Seg} {rest : List Seg} (h : wfSeq (s :: rest)) : wfSeq rest := by
  cases rest with
  | nil => trivial
  | cons t r => exact h.2.2

/-- Adjacent segments of a well-formed template satisfy the adjacency constraint. -/
theorem wfSeq_adj {s t : Seg} {rest : List Seg} (h : wfSeq (s :: t :: rest)) :
    wfAdj s t := h.2.1

/-- Every segment of a well-formed template is well-formed. -/
theorem wfSeq_all {ts : List Seg} (h : wfSeq ts) : ∀ s ∈ ts, wfSeg s := by
  induction ts with
  | nil =>
    intro s hs
    cases hs
  | cons a rest ih =>
    intro s hs
    rcases List.mem_cons.mp hs with rfl | hs
    · exact wfSeq_head h
    · exact ih (wfSeq_tail h) s hs

/-- Same template shape, raw characters equal, literal and numeral and
whitespace values free. -/
def shapeEq : Seg → Seg → Prop
  | Seg.raw c, Seg.raw c2 => c = c2
  | Seg.lit _, Seg.lit _ => True
  | Seg.num _, Seg.num _ => True
  | Seg.ws _, Seg.ws _ => True
  | _, _ => False

/-- Same template with only literal and numeral values free (whitespace equal). -/
def litNumShapeEq : Seg → Seg → Prop
  | Seg.raw c, Seg.raw c2 => c = c2
  | Seg.lit _, Seg.lit _ => True
  | Seg.num _, Seg.num _ => True
  | Seg.ws v, Seg.ws v2 => v = v2
  | _, _ => False

/-- Same template with only whitespace runs free (literals and numerals equal). -/
def wsShapeEq : Seg → Seg → Prop
  | Seg.raw c, Seg.raw c2 => c = c2
  | Seg.lit v, Seg.lit v2 => v = v2
  | Seg.num v, Seg.num v2 => v = v2
  | Seg.ws _, Seg.ws _ => True
  | _, _ => False

/-- Literal/numeral equivalence refines shape equivalence. -/
theorem litNumShapeEq_shapeEq {a b : Seg} (h : litNumShapeEq a b) : shapeEq a b := by
  cases a <;> cases b <;> first | exact h | trivial | cases h

/-- Whitespace equivalence refines shape equivalence. -/
theorem wsShapeEq_shapeEq {a b : Seg} (h : wsShapeEq a b) : shapeEq a b := by
  cases a <;> cases b <;> first | exact h | trivial | cases h

/-! ### The string-literal stage on templates -/

/-- Whitespace is never a quote. -/
theorem ws_ne_quote {x : Char} (h : isWsC x = true) : ¬(x = quoteChar) := by
  intro hq
  rw [hq] at h
  exact absurd h (by decide)

/-- `stripStrings` passes a quote-free chunk through. -/
theorem stripStrings_append_noquote {u : List Char} (h : quoteChar ∉ u)
    (l : List Char) : stripStrings (u ++ l) = u ++ stripStrings l := by
  induction u with
  | nil => rfl
  | cons c cs ih =>
    have hc : ¬(c = quoteChar) := by
      intro hc
      refine h ?_
      rw [← hc]
      exact List.mem_cons_self c cs
    rw [List.cons_append, stripStrings_cons_ne hc,
      ih (fun hm => h (List.mem_cons_of_mem c hm))]
    rfl

/-- `splitOnQuote` extends its first chunk through a quote-free block. -/
theorem splitOnQuote_append_noquote {u : List Char} (h : quoteChar ∉ u)
    {l : List Char} {p : List Char} {ps : List (List Char)}
    (hl : splitOnQuote l = p :: ps) : splitOnQuote (u ++ l) = (u ++ p) :: ps := by
  induction u with
  | nil => simpa using hl
  | cons c cs ih =>
    have hc : ¬(c = quoteChar) := by
      intro hc
      refine h ?_
      rw [← hc]
      exact List.mem_cons_self c cs
    rw [List.cons_append, splitOnQuote, if_neg hc,
      ih (fun hm => h (List.mem_cons_of_mem c hm))]
    rfl

/-- After the string-literal stage, a well-formed template renders with every
literal replaced by `?`. -/
theorem stripStrings_render (ts : List Seg) (hwf : ∀ s ∈ ts, wfSeg s) :
    stripStrings (render ts) = rsRender ts := by
  induction ts with
  | nil => rfl
  | cons s rest ih =>
    have hs : wfSeg s := hwf s (List.mem_cons_self s rest)
    have hrest : ∀ x ∈ rest, wfSeg x := fun x hx => hwf x (List.mem_cons_of_mem s hx)
    cases s with
    | raw c =>
      rw [show render (Seg.raw c :: rest) = c :: render rest from rfl,
        stripStrings_cons_ne hs, ih hrest]
      rfl
    | num v =>
      have hnq : quoteChar ∉ v := by
        intro hm
        rcases hs with ⟨_, hdig⟩ | ⟨d1, d2, hv, _, _, hd1, hd2⟩
        · exact digit_ne_quote (hdig quoteChar hm) rfl
        · rw [hv] at hm
          rcases List.mem_append.mp hm with hm | hm
          · exact digit_ne_quote (hd1 quoteChar hm) rfl
          · rcases List.mem_cons.mp hm with hdot | hm
            · exact absurd hdot.symm (by decide)
            · exact digit_ne_quote (hd2 quoteChar hm) rfl
      rw [show render (Seg.num v :: rest) = v ++ render rest from rfl,
        stripStrings_append_noquote hnq, ih hrest]
      rfl
    | ws v =>
      have hnq : quoteChar ∉ v := by
        intro hm
        exact ws_ne_quote (hs.2 quoteChar hm) rfl
      rw [show render (Seg.ws v :: rest) = v ++ render rest from rfl,
        stripStrings_append_noquote hnq, ih hrest]
      rfl
    | lit v =>
      cases hPS : splitOnQuote (render rest) with
      | nil => exact absurd hPS (splitOnQuote_ne_nil _)
      | cons q qs =>
        have hsplit : splitOnQuote (render (Seg.lit v :: rest)) =
            [] :: v :: q :: qs := by
          rw [show render (Seg.lit v :: rest) =
              quoteChar :: (v ++ quoteChar :: render rest) from by
            rw [show render (Seg.lit v :: rest) =
                (quoteChar :: (v ++ [quoteChar])) ++ render rest from rfl]
            simp]
          rw [splitOnQuote, if_pos rfl]
          rw [splitOnQuote_append_noquote hs
            (show splitOnQuote (quoteChar :: render rest) =
              [] :: q :: qs from by rw [splitOnQuote, if_pos rfl, hPS])]
          simp
        unfold stripStrings
        rw [hsplit]
        rw [show rejoinQuoted ([] :: v :: q :: qs) =
            '?' :: rejoinQuoted (q :: qs) from rfl]
        rw [← hPS]
        rw [show rsRender (Seg.lit v :: rest) = '?' :: rsRender rest from rfl]
        exact congrArg ('?' :: ·) (ih hrest)

/-! ### Whitespace-respelling equivalence -/

/-- Two character lists that differ only in the spelling of whitespace runs
(each run replaced by another nonempty run). -/
inductive WsEq : List Char → List Char → Prop where
  | nil : WsEq [] []
  | cons {c : Char} {x y : List Char} :
      isWsC c = false → WsEq x y → WsEq (c :: x) (c :: y)
  | ws {r s x y : List Char} : r ≠ [] → s ≠ [] → (∀ c ∈ r, isWsC c = true) →
      (∀ c ∈ s, isWsC c = true) → WsEq x y → WsEq (r ++ x) (s ++ y)

/-- Whitespace-respelling is reflexive. -/
theorem wsEq_refl (z : List Char) : WsEq z z := by
  induction z with
  | nil => exact WsEq.nil
  | cons c cs ih =>
    by_cases hws : isWsC c = true
    · show WsEq ([c] ++ cs) ([c] ++ cs)
      refine WsEq.ws (by simp) (by simp) ?_ ?_ ih <;>
        · intro x hx
          simp only [List.mem_singleton] at hx
          subst hx
          exact hws
    · exact WsEq.cons (bool_not_true hws) ih

/-- Whitespace-respelling is stable under a common prefix. -/
theorem wsEq_append_left (E : List Char) {x y : List Char} (h : WsEq x y) :
    WsEq (E ++ x) (E ++ y) := by
  induction E with
  | nil => simpa using h
  | cons c cs ih =>
    by_cases hws : isWsC c = true
    · show WsEq ([c] ++ (cs ++ x)) ([c] ++ (cs ++ y))
      refine WsEq.ws (by simp) (by simp) ?_ ?_ ih <;>
        · intro z hz
          simp only [List.mem_singleton] at hz
          subst hz
          exact hws
    · exact WsEq.cons (bool_not_true hws) ih

/-- Collapsing a nonempty whitespace run yields at most one space. -/
theorem collapseGo_wsrun (r : List Char) (hne : r ≠ [])
    (hws : ∀ c ∈ r, isWsC c = true) (b : Bool) (x : List Char) :
    collapseGo b (r ++ x) =
      (if b then ([] : List Char) else [' ']) ++ collapseGo true x := by
  induction r generalizing b with
  | nil => exact absurd rfl hne
  | cons c cs ih =>
    have hc : isWsC c = true := hws c (List.mem_cons_self c cs)
    rcases eq_or_ne cs [] with rfl | hcs
    · cases b with
      | true =>
        rw [List.cons_append, collapseGo_cons_ws_true hc]
        try simp
      | false =>
        rw [List.cons_append, collapseGo_cons_ws_false hc]
        try simp
    · have htail := ih hcs (fun z hz => hws z (List.mem_cons_of_mem c hz))
      cases b with
      | true =>
        rw [List.cons_append, collapseGo_cons_ws_true hc, htail true]
        try simp
      | false =>
        rw [List.cons_append, collapseGo_cons_ws_false hc, htail true]
        try simp

/-- Whitespace-respelled lists collapse identically. -/
theorem wsEq_collapse {x y : List Char} (h : WsEq x y) :
    ∀ b, collapseGo b x = collapseGo b y := by
  induction h with
  | nil =>
    intro b
    rfl
  | cons hc _ ih =>
    intro b
    rw [collapseGo_cons_nonws hc, collapseGo_cons_nonws hc, ih false]
  | ws hr hs hrw hsw _ ih =>
    intro b
    rw [collapseGo_wsrun _ hr hrw b, collapseGo_wsrun _ hs hsw b, ih true]

/-! ### The numeric-literal scanner on template chunks -/

/-- Non-word characters are not digits. -/
theorem notWord_notDigit {c : Char} (h : isWordC c = false) : c.isDigit = false := by
  by_cases hd : c.isDigit = true
  · simp [isWordC, hd] at h
  · exact bool_not_true hd

/-- On a non-word, non-dot character the scanner returns to the ground state
and emits its flush followed by the character. -/
theorem numStep_neutral {c : Char} (hw : isWordC c = false) (hdot : ¬(c = '.'))
    (st : NumSt) : numStep st c = (NumSt.norm false, numFlush st ++ [c]) := by
  have hd : c.isDigit = false := notWord_notDigit hw
  cases st with
  | norm p => simp [numStep, numFlush, hd, hw]
  | run1 d1 => simp [numStep, numFlush, hd, hw, hdot]
  | runDot d1 => simp [numStep, numFlush, hd, hw]
  | run2 d1 d2 => simp [numStep, numFlush, hd, hw]

/-- On a non-word, non-dot character the next scanner state is the ground
state. -/
theorem numStep_nonword_state {c : Char} (hw : isWordC c = false)
    (hdot : ¬(c = '.')) (st : NumSt) : (numStep st c).1 = NumSt.norm false := by
  rw [numStep_neutral hw hdot]

/-- Unfolding one step of the scanner run. -/
theorem stripNumsGo_cons (st : NumSt) (c : Char) (l : List Char) :
    stripNumsGo st (c :: l) = (numStep st c).2 ++ stripNumsGo (numStep st c).1 l := rfl

/-- A non-word, non-dot character after any state: flush, emit, restart. -/
theorem stripNumsGo_neutral_cons {c : Char} (hw : isWordC c = false)
    (hdot : ¬(c = '.')) (st : NumSt) (l : List Char) :
    stripNumsGo st (c :: l) = numFlush st ++ c :: stripNumsGo (NumSt.norm false) l := by
  rw [stripNumsGo_cons, numStep_neutral hw hdot]
  simp

/-- A nonempty whitespace run passes through the scanner, flushing the
incoming state and resetting it to the ground state. -/
theorem stripNumsGo_ws_chunk {v : List Char} (hne : v ≠ [])
    (hws : ∀ c ∈ v, isWsC c = true) (st : NumSt) (rest : List Char) :
    stripNumsGo st (v ++ rest) =
      numFlush st ++ v ++ stripNumsGo (NumSt.norm false) rest := by
  induction v generalizing st with
  | nil => exact absurd rfl hne
  | cons c cs ih =>
    have hc : isWsC c = true := hws c (List.mem_cons_self c cs)
    have hstep := stripNumsGo_neutral_cons (wsC_not_word hc) (wsC_not_dot hc) st
      (cs ++ rest)
    rcases eq_or_ne cs [] with rfl | hcs
    · simpa using hstep
    · rw [List.cons_append, hstep,
        ih hcs (fun z hz => hws z (List.mem_cons_of_mem c hz)) (NumSt.norm false)]
      simp [numFlush]

/-- Digits are buffered in state `run1`. -/
theorem stripNumsGo_run1_digits :
    ∀ (ds : List Char), digitsOnly ds → ∀ d1 r,
      stripNumsGo (NumSt.run1 d1) (ds ++ r) =
        stripNumsGo (NumSt.run1 (ds.reverse ++ d1)) r := by
  intro ds
  induction ds with
  | nil =>
    intro _ d1 r
    simp
  | cons d ds ih =>
    intro h d1 r
    have hd : d.isDigit = true := h d (List.mem_cons_self d ds)
    have hstep : numStep (NumSt.run1 d1) d = (NumSt.run1 (d :: d1), []) := by
      simp [numStep, hd]
    rw [List.cons_append, stripNumsGo_cons, hstep]
    show stripNumsGo (NumSt.run1 (d :: d1)) (ds ++ r) =
      stripNumsGo (NumSt.run1 ((d :: ds).reverse ++ d1)) r
    rw [ih (fun z hz => h z (List.mem_cons_of_mem d hz)) (d :: d1) r]
    have hrev : ds.reverse ++ (d :: d1) = (d :: ds).reverse ++ d1 := by
      simp
    rw [hrev]

/-- Digits are buffered in state `run2`. -/
theorem stripNumsGo_run2_digits :
    ∀ (ds : List Char), digitsOnly ds → ∀ d1 d2 r,
      stripNumsGo (NumSt.run2 d1 d2) (ds ++ r) =
        stripNumsGo (NumSt.run2 d1 (ds.reverse ++ d2)) r := by
  intro ds
  induction ds with
  | nil =>
    intro _ d1 d2 r
    simp
  | cons d ds ih =>
    intro h d1 d2 r
    have hd : d.isDigit = true := h d (List.mem_cons_self d ds)
    have hstep : numStep (NumSt.run2 d1 d2) d = (NumSt.run2 d1 (d :: d2), []) := by
      simp [numStep, hd]
    rw [List.cons_append, stripNumsGo_cons, hstep]
    show stripNumsGo (NumSt.run2 d1 (d :: d2)) (ds ++ r) =
      stripNumsGo (NumSt.run2 d1 ((d :: ds).reverse ++ d2)) r
    rw [ih (fun z hz => h z (List.mem_cons_of_mem d hz)) d1 (d :: d2) r]
    have hrev : ds.reverse ++ (d :: d2) = (d :: ds).reverse ++ d2 := by
      simp
    rw [hrev]

/-- The continuation after a closed numeric literal must not begin with a word
character or a dot (so the trailing word boundary of the match holds). -/
def headOkForNum : List Char → Prop
  | [] => True
  | c :: _ => isWordC c = false ∧ ¬(c = '.')

/-- Closing a digits-only candidate at a valid boundary yields `?`. -/
theorem stripNumsGo_run1_close {rest : List Char} (h : headOkForNum rest)
    (d1 : List Char) :
    stripNumsGo (NumSt.run1 d1) rest = '?' :: stripNumsGo (NumSt.norm false) rest := by
  cases rest with
  | nil => rfl
  | cons c cs =>
    have hcc : isWordC c = false ∧ ¬(c = '.') := h
    rw [stripNumsGo_neutral_cons hcc.1 hcc.2 (NumSt.run1 d1) cs,
      stripNumsGo_neutral_cons hcc.1 hcc.2 (NumSt.norm false) cs]
    rfl

/-- Closing a digits-dot-digits candidate at a valid boundary yields `?`. -/
theorem stripNumsGo_run2_close {rest : List Char} (h : headOkForNum rest)
    (d1 d2 : List Char) :
    stripNumsGo (NumSt.run2 d1 d2) rest =
      '?' :: stripNumsGo (NumSt.norm false) rest := by
  cases rest with
  | nil => rfl
  | cons c cs =>
    have hcc : isWordC c = false ∧ ¬(c = '.') := h
    rw [stripNumsGo_neutral_cons hcc.1 hcc.2 (NumSt.run2 d1 d2) cs,
      stripNumsGo_neutral_cons hcc.1 hcc.2 (NumSt.norm false) cs]
    rfl

/-- A well-formed numeric literal entered at the ground state and followed by
a non-word, non-dot continuation is replaced by a single `?`. -/
theorem stripNumsGo_num_chunk {v rest : List Char} (hv : numLit v)
    (h : headOkForNum rest) :
    stripNumsGo (NumSt.norm false) (v ++ rest) =
      '?' :: stripNumsGo (NumSt.norm false) rest := by
  rcases hv with ⟨hne, hdig⟩ | ⟨d1, d2, hveq, hd1ne, hd2ne, hd1, hd2⟩
  · cases v with
    | nil => exact absurd rfl hne
    | cons d ds =>
      have hd : d.isDigit = true := hdig d (List.mem_cons_self d ds)
      have hstep : numStep (NumSt.norm false) d = (NumSt.run1 [d], []) := by
        simp [numStep, hd]
      rw [List.cons_append, stripNumsGo_cons, hstep]
      show stripNumsGo (NumSt.run1 [d]) (ds ++ rest) = _
      rw [stripNumsGo_run1_digits ds (fun z hz => hdig z (List.mem_cons_of_mem d hz))
        [d] rest, stripNumsGo_run1_close h]
  · subst hveq
    cases d1 with
    | nil => exact absurd rfl hd1ne
    | cons e es =>
      have he : e.isDigit = true := hd1 e (List.mem_cons_self e es)
      have hstep : numStep (NumSt.norm false) e = (NumSt.run1 [e], []) := by
        simp [numStep, he]
      rw [show ((e :: es) ++ '.' :: d2) ++ rest =
          e :: (es ++ ('.' :: (d2 ++ rest))) from by simp,
        stripNumsGo_cons, hstep]
      show stripNumsGo (NumSt.run1 [e]) (es ++ ('.' :: (d2 ++ rest))) = _
      rw [stripNumsGo_run1_digits es (fun z hz => hd1 z (List.mem_cons_of_mem e hz))
        [e] ('.' :: (d2 ++ rest))]
      have hdotstep : numStep (NumSt.run1 (es.reverse ++ [e])) '.' =
          (NumSt.runDot (es.reverse ++ [e]), []) := rfl
      rw [stripNumsGo_cons, hdotstep]
      show stripNumsGo (NumSt.runDot (es.reverse ++ [e])) (d2 ++ rest) = _
      cases d2 with
      | nil => exact absurd rfl hd2ne
      | cons f fs =>
        have hf : f.isDigit = true := hd2 f (List.mem_cons_self f fs)
        have hfstep : numStep (NumSt.runDot (es.reverse ++ [e])) f =
            (NumSt.run2 (es.reverse ++ [e]) [f], []) := by
          simp [numStep, hf]
        rw [List.cons_append, stripNumsGo_cons, hfstep]
        show stripNumsGo (NumSt.run2 (es.reverse ++ [e]) [f]) (fs ++ rest) = _
        rw [stripNumsGo_run2_digits fs (fun z hz => hd2 z (List.mem_cons_of_mem f hz))
          (es.reverse ++ [e]) [f] rest, stripNumsGo_run2_close h]

/-! ### Shape-equal templates scan to equivalent outputs -/

/-- Entry-state constraint: a template starting with a numeric literal must be
entered in the ground state. -/
def numEntryOk : List Seg → NumSt → Prop
  | Seg.num _ :: _, st => st = NumSt.norm false
  | _, _ => True

/-- The ground state is a valid entry state for every template. -/
theorem numEntryOk_nf (ts : List Seg) : numEntryOk ts (NumSt.norm false) := by
  cases ts with
  | nil => trivial
  | cons s rest => cases s <;> first | trivial | rfl

/-- After a raw character the scanner state is a valid entry state for the
rest of a well-formed template. -/
theorem numEntryOk_after_raw {c : Char} {l : List Seg} {st : NumSt}
    (hw : wfSeq (Seg.raw c :: l)) : numEntryOk l (numStep st c).1 := by
  cases l with
  | nil => trivial
  | cons t rest =>
    cases t with
    | num v =>
      have hadj : wfAdj (Seg.raw c) (Seg.num v) := wfSeq_adj hw
      have hok : okBeforeNum (Seg.raw c) := hadj.1
      exact numStep_nonword_state hok.1 hok.2 st
    | raw c2 => trivial
    | lit v => trivial
    | ws v => trivial

/-- A segment that may follow a numeral renders, after the string-literal
stage, with a non-word, non-dot first character. -/
theorem headOk_rsRender {t : Seg} {rest : List Seg} (hwf : wfSeg t)
    (hok : okAfterNum t) : headOkForNum (rsRender (t :: rest)) := by
  cases t with
  | raw c => exact hok
  | lit v => exact ⟨by decide, by decide⟩
  | num v => exact False.elim hok
  | ws v =>
    have hv : v ≠ [] ∧ ∀ c ∈ v, isWsC c = true := hwf
    cases v with
    | nil => exact absurd rfl hv.1
    | cons c cs =>
      have hc : isWsC c = true := hv.2 c (List.mem_cons_self c cs)
      exact ⟨wsC_not_word hc, wsC_not_dot hc⟩

/-- Shape-equal well-formed templates scan to whitespace-respelling-equivalent
outputs from any common valid entry state. -/
theorem master_rn : ∀ {ts ts' : List Seg}, List.Forall₂ shapeEq ts ts' →
    ∀ st, wfSeq ts → wfSeq ts' → numEntryOk ts st → numEntryOk ts' st →
    WsEq (stripNumsGo st (rsRender ts)) (stripNumsGo st (rsRender ts')) := by
  intro ts ts' h
  induction h with
  | nil =>
    intro st _ _ _ _
    exact wsEq_refl _
  | @cons a b l1 l2 hab hrest ih =>
    intro st hw1 hw2 hn1 hn2
    cases a with
    | raw c =>
      cases b with
      | raw c2 =>
        have hcc : c = c2 := hab
        subst hcc
        rw [show rsRender (Seg.raw c :: l1) = c :: rsRender l1 from rfl,
          show rsRender (Seg.raw c :: l2) = c :: rsRender l2 from rfl,
          stripNumsGo_cons, stripNumsGo_cons]
        exact wsEq_append_left _ (ih (numStep st c).1 (wfSeq_tail hw1)
          (wfSeq_tail hw2) (numEntryOk_after_raw hw1) (numEntryOk_after_raw hw2))
      | lit v => exact False.elim hab
      | num v => exact False.elim hab
      | ws v => exact False.elim hab
    | lit v =>
      cases b with
      | raw c => exact False.elim hab
      | lit v2 =>
        rw [show rsRender (Seg.lit v :: l1) = '?' :: rsRender l1 from rfl,
          show rsRender (Seg.lit v2 :: l2) = '?' :: rsRender l2 from rfl,
          stripNumsGo_neutral_cons (by decide) (by decide) st (rsRender l1),
          stripNumsGo_neutral_cons (by decide) (by decide) st (rsRender l2)]
        refine wsEq_append_left (numFlush st) ?_
        exact WsEq.cons (by decide)
          (ih (NumSt.norm false) (wfSeq_tail hw1) (wfSeq_tail hw2)
            (numEntryOk_nf l1) (numEntryOk_nf l2))
      | num v2 => exact False.elim hab
      | ws v2 => exact False.elim hab
    | num v =>
      cases b with
      | raw c => exact False.elim hab
      | lit v2 => exact False.elim hab
      | num v2 =>
        have hst : st = NumSt.norm false := hn1
        subst hst
        have hv : numLit v := wfSeq_head hw1
        have hv2 : numLit v2 := wfSeq_head hw2
        have hhead1 : headOkForNum (rsRender l1) := by
          cases l1 with
          | nil => trivial
          | cons t rest =>
            exact headOk_rsRender (wfSeq_head (wfSeq_tail hw1)) (wfSeq_adj hw1).2
        have hhead2 : headOkForNum (rsRender l2) := by
          cases l2 with
          | nil => trivial
          | cons t rest =>
            exact headOk_rsRender (wfSeq_head (wfSeq_tail hw2)) (wfSeq_adj hw2).2
        rw [show rsRender (Seg.num v :: l1) = v ++ rsRender l1 from rfl,
          show rsRender (Seg.num v2 :: l2) = v2 ++ rsRender l2 from rfl,
          stripNumsGo_num_chunk hv hhead1, stripNumsGo_num_chunk hv2 hhead2]
        exact WsEq.cons (by decide)
          (ih (NumSt.norm false) (wfSeq_tail hw1) (wfSeq_tail hw2)
            (numEntryOk_nf l1) (numEntryOk_nf l2))
      | ws v2 => exact False.elim hab
    | ws v =>
      cases b with
      | raw c => exact False.elim hab
      | lit v2 => exact False.elim hab
      | num v2 => exact False.elim hab
      | ws v2 =>
        have h1 : v ≠ [] ∧ ∀ c ∈ v, isWsC c = true := wfSeq_head hw1
        have h2 : v2 ≠ [] ∧ ∀ c ∈ v2, isWsC c = true := wfSeq_head hw2
        rw [show rsRender (Seg.ws v :: l1) = v ++ rsRender l1 from rfl,
          show rsRender (Seg.ws v2 :: l2) = v2 ++ rsRender l2 from rfl,
          stripNumsGo_ws_chunk h1.1 h1.2 st, stripNumsGo_ws_chunk h2.1 h2.2 st,
          List.append_assoc, List.append_assoc]
        refine wsEq_append_left (numFlush st) ?_
        exact WsEq.ws h1.1 h2.1 h1.2 h2.2
          (ih (NumSt.norm false) (wfSeq_tail hw1) (wfSeq_tail hw2)
            (numEntryOk_nf l1) (numEntryOk_nf l2))

/-- Shape-equal well-formed templates have the same fingerprint characters. -/
theorem master_fp {ts ts' : List Seg} (h : List.Forall₂ shapeEq ts ts')
    (hw : wfSeq ts) (hw' : wfSeq ts') :
    fpChars (render ts) = fpChars (render ts') := by
  have hE : WsEq (stripNumsGo (NumSt.norm false) (rsRender ts))
      (stripNumsGo (NumSt.norm false) (rsRender ts')) :=
    master_rn h (NumSt.norm false) hw hw' (numEntryOk_nf ts) (numEntryOk_nf ts')
  show trimBoth (collapseGo false
      (stripNumsGo (NumSt.norm false) (stripStrings (render ts)))) =
    trimBoth (collapseGo false
      (stripNumsGo (NumSt.norm false) (stripStrings (render ts'))))
  rw [stripStrings_render ts (wfSeq_all hw), stripStrings_render ts' (wfSeq_all hw'),
    wsEq_collapse hE false]

/-- A well-formed nonempty template renders a nonempty text. -/
theorem render_ne_nil {s : Seg} {rest : List Seg} (hw : wfSeq (s :: rest)) :
    render (s :: rest) ≠ [] := by
  have hs : wfSeg s := wfSeq_head hw
  intro hcontra
  have hseg : renderSeg s = [] := (List.append_eq_nil.mp hcontra).1
  cases s with
  | raw c => exact absurd hseg (by simp [renderSeg])
  | lit v => exact absurd hseg (by simp [renderSeg])
  | ws v =>
    have hv : v ≠ [] ∧ ∀ c ∈ v, isWsC c = true := hs
    exact absurd hseg hv.1
  | num v =>
    rcases hs with ⟨hne, _⟩ | ⟨d1, d2, hveq, _, _, _, _⟩
    · exact absurd hseg hne
    · rw [show renderSeg (Seg.num v) = v from rfl, hveq] at hseg
      rcases List.append_eq_nil.mp hseg with ⟨_, hcons⟩
      exact absurd hcons (by simp)

/-- On a nonempty text `fingerprintQuery` is `fpChars` on the characters. -/
theorem fingerprintQuery_mk_ne_nil {l : List Char} (h : l ≠ []) :
    fingerprintQuery (String.mk l) = String.mk (fpChars l) := by
  have hne : ¬((String.mk l).data.isEmpty = true) := by
    cases l with
    | nil => exact absurd rfl h
    | cons x xs => exact fun hcontra => Bool.noConfusion hcontra
  unfold fingerprintQuery
  rw [if_neg hne]

/-! ### The whole pipeline preserves whitespace-respelling equivalence -/

/-- `WsEq` is compatible with concatenation. -/
theorem wsEq_append {a b x y : List Char} (h1 : WsEq a b) (h2 : WsEq x y) :
    WsEq (a ++ x) (b ++ y) := by
  induction h1 with
  | nil => simpa using h2
  | cons hc _ ih => exact WsEq.cons hc ih
  | ws hr hs hrw hsw _ ih =>
    rw [List.append_assoc, List.append_assoc]
    exact WsEq.ws hr hs hrw hsw ih

/-- `splitOnQuote` maps whitespace-respelled lists to chunkwise
whitespace-respelled chunk lists (quotes are never whitespace). -/
theorem splitOnQuote_wsEq {x y : List Char} (h : WsEq x y) :
    List.Forall₂ WsEq (splitOnQuote x) (splitOnQuote y) := by
  induction h with
  | nil => exact List.Forall₂.cons WsEq.nil List.Forall₂.nil
  | @cons c x1 y1 hc hxy ih =>
    by_cases hq : c = quoteChar
    · rw [splitOnQuote, if_pos hq, splitOnQuote, if_pos hq]
      exact List.Forall₂.cons WsEq.nil ih
    · cases hx : splitOnQuote x1 with
      | nil => exact absurd hx (splitOnQuote_ne_nil x1)
      | cons p ps =>
        cases hy : splitOnQuote y1 with
        | nil => exact absurd hy (splitOnQuote_ne_nil y1)
        | cons q qs =>
          rw [splitOnQuote, if_neg hq, hx, splitOnQuote, if_neg hq, hy]
          rw [hx, hy] at ih
          cases ih with
          | cons hpq hps => exact List.Forall₂.cons (WsEq.cons hc hpq) hps
  | @ws r s x1 y1 hr hs hrw hsw hxy ih =>
    have hrq : quoteChar ∉ r := fun hm => ws_ne_quote (hrw _ hm) rfl
    have hsq : quoteChar ∉ s := fun hm => ws_ne_quote (hsw _ hm) rfl
    cases hx : splitOnQuote x1 with
    | nil => exact absurd hx (splitOnQuote_ne_nil x1)
    | cons p ps =>
      cases hy : splitOnQuote y1 with
      | nil => exact absurd hy (splitOnQuote_ne_nil y1)
      | cons q qs =>
        rw [splitOnQuote_append_noquote hrq hx, splitOnQuote_append_noquote hsq hy]
        rw [hx, hy] at ih
        cases ih with
        | cons hpq hps => exact List.Forall₂.cons (WsEq.ws hr hs hrw hsw hpq) hps

/-- `rejoinQuoted` maps chunkwise whitespace-respelled chunk lists to
whitespace-respelled lists. -/
theorem rejoinQuoted_wsEq : ∀ (ps qs : List (List Char)),
    List.Forall₂ WsEq ps qs → WsEq (rejoinQuoted ps) (rejoinQuoted qs)
  | [], _, h => by
    cases h
    exact WsEq.nil
  | [p], _, h => by
    cases h with
    | cons hpq h2 =>
      cases h2
      exact hpq
  | [p, p2], _, h => by
    cases h with
    | cons hpq h2 =>
      cases h2 with
      | cons hp2 h3 =>
        cases h3
        exact wsEq_append hpq (WsEq.cons (by decide) hp2)
  | p :: p2 :: r :: rs, _, h => by
    cases h with
    | cons hpq h2 =>
      cases h2 with
      | cons hp2 h3 =>
        cases h3 with
        | cons hr h4 =>
          exact wsEq_append hpq (WsEq.cons (by decide)
            (rejoinQuoted_wsEq (r :: rs) _ (List.Forall₂.cons hr h4)))

/-- The string-literal stage preserves whitespace-respelling equivalence. -/
theorem stripStrings_wsEq {x y : List Char} (h : WsEq x y) :
    WsEq (stripStrings x) (stripStrings y) :=
  rejoinQuoted_wsEq _ _ (splitOnQuote_wsEq h)

/-- The numeric-literal scanner preserves whitespace-respelling equivalence. -/
theorem stripNumsGo_wsEq {x y : List Char} (h : WsEq x y) :
    ∀ st, WsEq (stripNumsGo st x) (stripNumsGo st y) := by
  induction h with
  | nil =>
    intro st
    exact wsEq_refl _
  | @cons c x1 y1 hc hxy ih =>
    intro st
    rw [stripNumsGo_cons, stripNumsGo_cons]
    exact wsEq_append_left _ (ih (numStep st c).1)
  | @ws r s x1 y1 hr hs hrw hsw hxy ih =>
    intro st
    rw [stripNumsGo_ws_chunk hr hrw st, stripNumsGo_ws_chunk hs hsw st,
      List.append_assoc, List.append_assoc]
    exact wsEq_append_left (numFlush st) (WsEq.ws hr hs hrw hsw (ih (NumSt.norm false)))

/-- Whitespace-respelled texts have the same fingerprint characters. -/
theorem fpChars_wsEq {x y : List Char} (h : WsEq x y) : fpChars x = fpChars y := by
  have hE : WsEq (stripNumsGo (NumSt.norm false) (stripStrings x))
      (stripNumsGo (NumSt.norm false) (stripStrings y)) :=
    stripNumsGo_wsEq (stripStrings_wsEq h) (NumSt.norm false)
  show trimBoth (collapseGo false
      (stripNumsGo (NumSt.norm false) (stripStrings x))) =
    trimBoth (collapseGo false (stripNumsGo (NumSt.norm false) (stripStrings y)))
  rw [wsEq_collapse hE false]

/-- C1 (amended): two statement texts that are instances of the same
well-formed statement template — identical raw characters and whitespace runs,
with the values of quoted string literals and of numeric literals free, every
numeric literal delimited by non-word, non-dot characters — receive the same
fingerprint from `fingerprintQuery`.  (Unrestricted literal replacement can
change the fingerprint: see the counterexample.) -/
theorem fingerprintQuery_literal_invariance {ts ts' : List Seg}
    (h : List.Forall₂ litNumShapeEq ts ts') (hw : wfSeq ts) (hw' : wfSeq ts') :
    fingerprintQuery (String.mk (render ts)) =
      fingerprintQuery (String.mk (render ts')) := by
  have hfp : fpChars (render ts) = fpChars (render ts') :=
    master_fp (h.imp (fun a b hab => litNumShapeEq_shapeEq hab)) hw hw'
  cases h with
  | nil => rfl
  | cons hab hrest =>
    rw [fingerprintQuery_mk_ne_nil (render_ne_nil hw),
      fingerprintQuery_mk_ne_nil (render_ne_nil hw'), hfp]

/-- The literal-invariance theorem applied to `SELECT 12` against
`SELECT 3.5` (equal raw text and whitespace, different numeric literal). -/
theorem fingerprintQuery_literal_invariance_witness :
    fingerprintQuery (String.mk (render
      [Seg.raw 'S', Seg.ws [' '], Seg.num ['1', '2']])) =
    fingerprintQuery (String.mk (render
      [Seg.raw 'S', Seg.ws [' '], Seg.num ['3', '.', '5']])) :=
  fingerprintQuery_literal_invariance
    (List.Forall₂.cons rfl (List.Forall₂.cons rfl
      (List.Forall₂.cons True.intro List.Forall₂.nil)))
    ⟨show ¬('S' = quoteChar) by decide, ⟨True.intro, True.intro⟩,
      show [' '] ≠ [] ∧ ∀ c ∈ [' '], isWsC c = true by decide,
      ⟨True.intro, True.intro⟩,
      Or.inl ⟨show ['1', '2'] ≠ [] by decide,
        show ∀ c ∈ ['1', '2'], c.isDigit = true by decide⟩⟩
    ⟨show ¬('S' = quoteChar) by decide, ⟨True.intro, True.intro⟩,
      show [' '] ≠ [] ∧ ∀ c ∈ [' '], isWsC c = true by decide,
      ⟨True.intro, True.intro⟩,
      Or.inr ⟨['3'], ['5'], rfl, show ['3'] ≠ [] by decide,
        show ['5'] ≠ [] by decide,
        show ∀ c ∈ ['3'], c.isDigit = true by decide,
        show ∀ c ∈ ['5'], c.isDigit = true by decide⟩⟩

/-- C6 (amended): two statement texts that differ only in the spelling of
whitespace runs (each maximal nonempty whitespace run replaced by another
nonempty whitespace run) receive the same fingerprint from
`fingerprintQuery`; letter-case differences, by contrast, can change the
fingerprint, since no case normalisation is applied (see the
counterexample). -/
theorem fingerprintQuery_ws_invariance {x y : List Char} (h : WsEq x y) :
    fingerprintQuery (String.mk x) = fingerprintQuery (String.mk y) := by
  cases h with
  | nil => rfl
  | @cons c x1 y1 hc hxy =>
    rw [fingerprintQuery_mk_ne_nil (List.cons_ne_nil c x1),
      fingerprintQuery_mk_ne_nil (List.cons_ne_nil c y1),
      fpChars_wsEq (WsEq.cons hc hxy)]
  | @ws r s x1 y1 hr hs hrw hsw hxy =>
    have hx : r ++ x1 ≠ [] := fun hcontra => hr (List.append_eq_nil.mp hcontra).1
    have hy : s ++ y1 ≠ [] := fun hcontra => hs (List.append_eq_nil.mp hcontra).1
    rw [fingerprintQuery_mk_ne_nil hx, fingerprintQuery_mk_ne_nil hy,
      fpChars_wsEq (WsEq.ws hr hs hrw hsw hxy)]

/-- The whitespace-invariance theorem applied to `S  1` against `S<TAB>1`. -/
theorem fingerprintQuery_ws_invariance_witness :
    fingerprintQuery (String.mk ['S', ' ', ' ', '1']) =
      fingerprintQuery (String.mk ['S', '\t', '1']) :=
  fingerprintQuery_ws_invariance
    (WsEq.cons (by decide)
      (@WsEq.ws [' ', ' '] ['\t'] ['1'] ['1'] (by decide) (by decide)
        (by decide) (by decide) (WsEq.cons (by decide) WsEq.nil)))
